import Mathlib

/-!
Verification of the MicrosoftImagePuzzleSolver repository.

The Python source is shallowly embedded: the mutable `Matrix` class becomes a
record `(arrangement, space)` (the `parent` / `last_direction` links used only
for path reconstruction are modelled at the search level, as explicit history
lists carried by search nodes); Python `int` cell values and coordinates become
`Int`; functions that mutate `self` become pure functions returning the new
value; `random` draws become explicit inputs; unbounded loops take fuel.
-/

namespace Puzzle

/-- `MATRIX_SIZE` from src/matrix.py. -/
def MATRIX_SIZE : Int := 3

/-- `SPACE_VALUE` from src/matrix.py. -/
def SPACE_VALUE : Int := -1

/-- `boundary_check` from src/matrix.py: all candidates lie in `[0, MATRIX_SIZE)`. -/
def boundary_check (candidates : List Int) : Bool :=
  candidates.all (fun c => decide (0 ≤ c ∧ c < MATRIX_SIZE))

/-- The `Direction` enum from src/matrix.py, in its source definition order
(LEFT, UP, RIGHT, DOWN), which is the iteration order of `for direction in
Direction`. -/
inductive Direction where
  | LEFT
  | UP
  | RIGHT
  | DOWN
deriving DecidableEq, Repr

/-- The `(Δrow, Δcol)` value attached to each `Direction` enum member. -/
def Direction.delta : Direction → Int × Int
  | .LEFT => (0, -1)
  | .UP => (-1, 0)
  | .RIGHT => (0, 1)
  | .DOWN => (1, 0)

/-- The module-level `DIRECTIONS` list from src/matrix.py. -/
def DIRECTIONS : List Direction :=
  [Direction.LEFT, Direction.UP, Direction.RIGHT, Direction.DOWN]

/-- The `Matrix` class: `_arrangement` is the 3x3 grid, `_space_position` the
cached blank position.  Python initialises `_space_position = None`; the model
uses a dummy `(0, 0)` in the not-yet-placed state, which every claim-relevant
construction overwrites (well-formed input always places the blank). -/
structure Matrix where
  arrangement : List (List Int)
  space : Int × Int
deriving DecidableEq, Repr

/-- `Matrix.__eq__` from src/matrix.py compares `_arrangement` only. -/
def matEq (a b : Matrix) : Bool := a.arrangement == b.arrangement

/-- `Matrix.fetch`.  The out-of-bounds branch calls `util.fatal` (process
exit); it is unreachable on every claim-relevant path, and the model returns a
junk `0` there. -/
def fetch (m : Matrix) (row col : Int) : Int :=
  if boundary_check [row, col] then
    (m.arrangement.getD row.toNat []).getD col.toNat 0
  else 0

/-- `Matrix.place`.  The out-of-bounds branch calls `util.fatal`; the model
leaves the matrix unchanged there (unreachable on claim-relevant paths).
Exactly as in the source, the space cache is updated only when the placed
number is `SPACE_VALUE`: overwriting the blank cell with a number leaves the
cache stale, which is what makes the `exchange` analysis in claim C9
interesting. -/
def place (m : Matrix) (row col number : Int) : Matrix :=
  if boundary_check [row, col] then
    { arrangement :=
        m.arrangement.set row.toNat ((m.arrangement.getD row.toNat []).set col.toNat number)
      space := if number = SPACE_VALUE then (row, col) else m.space }
  else m

/-- `Matrix.clone`: in the pure model a deep copy is the value itself. -/
def clone (m : Matrix) : Matrix := m

/-- `Matrix.exchange`: silently does nothing when any coordinate is out of
bounds, otherwise swaps the two cells through two `place` calls, the first
writing `fetch(x2, y2)` at `(x1, y1)` and the second writing the saved
`temp = fetch(x1, y1)` at `(x2, y2)` (`temp` is read from the original
matrix before the first write, as in the source). -/
def exchange (m : Matrix) (x1 y1 x2 y2 : Int) : Matrix :=
  if boundary_check [x1, x2, y1, y2] then
    place (place m x1 y1 (fetch m x2 y2)) x2 y2 (fetch m x1 y1)
  else m

/-- `Matrix.play_only`: move the space tile towards one direction, `none` when
the destination is out of bounds.  The `parent` / `last_direction` fields set
by the source are modelled by the search-level history lists. -/
def play_only (m : Matrix) (d : Direction) : Option Matrix :=
  if boundary_check [m.space.1 + d.delta.1, m.space.2 + d.delta.2] then
    some (exchange (clone m) m.space.1 m.space.2
      (m.space.1 + d.delta.1) (m.space.2 + d.delta.2))
  else none

/-- `Matrix.play`: iterate the directions in enum order, skipping forbidden
ones and out-of-bounds moves, appending each new matrix. -/
def play (m : Matrix) (forbidden : List Direction) : List Matrix :=
  DIRECTIONS.foldl
    (fun acc d =>
      if d ∈ forbidden then acc
      else if boundary_check [m.space.1 + d.delta.1, m.space.2 + d.delta.2] then
        acc ++ [exchange (clone m) m.space.1 m.space.2
          (m.space.1 + d.delta.1) (m.space.2 + d.delta.2)]
      else acc)
    []

/-- `Matrix.play_towards`: like `play` but over a caller-given direction list. -/
def play_towards (m : Matrix) (towards : List Direction) : List Matrix :=
  towards.foldl
    (fun acc d =>
      if boundary_check [m.space.1 + d.delta.1, m.space.2 + d.delta.2] then
        acc ++ [exchange (clone m) m.space.1 m.space.2
          (m.space.1 + d.delta.1) (m.space.2 + d.delta.2)]
      else acc)
    []

/-- The nine cell index pairs of a 3x3 matrix, in row-major order (the order of
the nested `for` loops in the source). -/
def cellIndices : List (Int × Int) :=
  [(0, 0), (0, 1), (0, 2), (1, 0), (1, 1), (1, 2), (2, 0), (2, 1), (2, 2)]

/-- The empty matrix `Matrix.__init__` starts from: all cells `SPACE_VALUE`,
space cache not yet set (dummy `(0, 0)`). -/
def emptyMatrix : Matrix :=
  { arrangement := [[SPACE_VALUE, SPACE_VALUE, SPACE_VALUE],
                    [SPACE_VALUE, SPACE_VALUE, SPACE_VALUE],
                    [SPACE_VALUE, SPACE_VALUE, SPACE_VALUE]]
    space := (0, 0) }

/-- `Matrix.__init__` on already-decoded numeric data: place each number of the
3x3 input grid cell by cell, row-major, exactly as the constructor loop does.
Textual decoding and its `util.fatal` validation are the out-of-scope input
layer; `WFData` below captures the inputs that pass that validation. -/
def mkMatrix (data : List (List Int)) : Matrix :=
  (cellIndices.map (fun p => (p.1, p.2, (data.getD p.1.toNat []).getD p.2.toNat 0))).foldl
    (fun m t => place m t.1 t.2.1 t.2.2) emptyMatrix

/-- Input data that passes the constructor's validation: a 3x3 grid holding the
blank exactly once and each of the numbers 1..8 exactly once. -/
def WFData (data : List (List Int)) : Prop :=
  data.length = 3 ∧ (∀ row ∈ data, row.length = 3) ∧
    (∀ v ∈ [SPACE_VALUE, 1, 2, 3, 4, 5, 6, 7, 8],
      (data.flatten.count v) = 1)

instance (data : List (List Int)) : Decidable (WFData data) := by
  unfold WFData; infer_instance

/-- Well-formed matrix: 3x3 shape, the space cache is in bounds and points at a
cell holding `SPACE_VALUE`, and no other cell holds `SPACE_VALUE`. -/
def WF (m : Matrix) : Prop :=
  m.arrangement.length = 3 ∧ (∀ row ∈ m.arrangement, row.length = 3) ∧
    boundary_check [m.space.1, m.space.2] = true ∧
    fetch m m.space.1 m.space.2 = SPACE_VALUE ∧
    (∀ p ∈ cellIndices, fetch m p.1 p.2 = SPACE_VALUE → p = m.space)

instance (m : Matrix) : Decidable (WF m) := by
  unfold WF; infer_instance

/-- 3x3 shape of the underlying grid. -/
def Shape3 (m : Matrix) : Prop :=
  m.arrangement.length = 3 ∧ ∀ row ∈ m.arrangement, row.length = 3

/-! ### src/algorithm/__init__.py -/

/-- `differentiate`: collect the values sitting at differing cells of the two
matrices.  The Python `set` is modelled as a duplicate-free list (`List.insert`
skips present elements); only membership and cardinality of the result are
ever used, so the iteration order of the set is immaterial. -/
def differentiate (old new : Matrix) : List Int :=
  cellIndices.foldl
    (fun acc p =>
      if fetch old p.1 p.2 ≠ fetch new p.1 p.2 then
        List.insert (fetch new p.1 p.2) (List.insert (fetch old p.1 p.2) acc)
      else acc)
    []

/-- `SolutionStep`: the clicked tile value and a copy of the destination
matrix. -/
structure Step where
  click : Int
  target : Matrix
deriving DecidableEq, Repr

/-- `SolutionStep.__init__` as a fallible constructor: `none` models raising
`InvalidStepException` (the source raises when the difference set does not
have exactly two elements with the blank among them).  The final `none`
branch mirrors the source's `self.click` staying unassigned when no non-blank
difference exists; it is unreachable when the guard holds. -/
def buildStep (old new : Matrix) : Option Step :=
  if (differentiate old new).length = 2 ∧ SPACE_VALUE ∈ differentiate old new then
    match (differentiate old new).find? (fun v => v != SPACE_VALUE) with
    | some v => some { click := v, target := clone new }
    | none => none
  else none

/-! ### Search nodes

Python matrices carry a `parent` pointer and `parents()` walks it; the model
carries the ancestor chain explicitly: `hist` lists the ancestors nearest
first, ending with the root, exactly what `target.parents()` returns. -/

structure Node where
  mat : Matrix
  hist : List Matrix
deriving DecidableEq, Repr

/-- Python's `matrix in list_of_matrices` membership (element-wise `__eq__`,
i.e. grid-content equality). -/
def memMat (x : Matrix) (l : List Matrix) : Bool := l.any (fun y => matEq x y)

def nodeDepth (n : Node) : Nat := n.hist.length

/-- The common expansion step of BFS and DFS: `target.play()` filtered by
`not in target.parents()`, each kept child extending the ancestor chain. -/
def expandNode (n : Node) : List Node :=
  ((play n.mat []).filter (fun c => !(memMat c n.hist))).map
    (fun c => { mat := c, hist := n.mat :: n.hist })

/-- Walking the parent chain of a found node, building one `SolutionStep` per
parent link and returning them root-to-goal (the source builds the reversed
list and ends with `steps[::-1]`).  `none` models `InvalidStepException`
escaping the walk. -/
def stepsOfChain : Matrix → List Matrix → Option (List Step)
  | _, [] => some []
  | m, p :: ps => do
      let rest ← stepsOfChain p ps
      let s ← buildStep p m
      pure (rest ++ [s])

/-! ### src/algorithm/search/bfs.py -/

/-- The `while matrix_queue.qsize() > 0` loop of `BreadthFirstSearch.solve`,
with the FIFO queue as a list (head = next dequeued) and explicit fuel.
Results: `none` = fuel exhausted or frontier exhausted ("no solution");
`some r` = goal dequeued, where `r` is the reconstructed step list and
`r = none` models `InvalidStepException` escaping (proved unreachable). -/
def bfsLoop (final : Matrix) : Nat → List Node → Option (Option (List Step))
  | 0, _ => none
  | _ + 1, [] => none
  | fuel + 1, n :: rest =>
      if matEq n.mat final then some (stepsOfChain n.mat n.hist)
      else bfsLoop final fuel (rest ++ expandNode n)

/-- `BreadthFirstSearch.solve`: seed the queue with (a clone of) the initial
matrix and run the loop. -/
def bfsSolve (initial final : Matrix) (fuel : Nat) : Option (Option (List Step)) :=
  bfsLoop final fuel [{ mat := clone initial, hist := [] }]

/-! ### src/algorithm/search/dfs.py -/

/-- `DepthFirstSearch._dfs`.  `fuel = depth_limit - depth + 1`, so `fuel = 0`
is exactly the `depth > self.depth_limit` guard.  Children are scanned left to
right; a child equal to `final` returns its reconstructed chain, otherwise the
first non-`none` recursive result is propagated (`List.findSome?`). -/
def dfsAux (final : Matrix) : Nat → Node → Option (Option (List Step))
  | 0, _ => none
  | fuel + 1, n =>
      (expandNode n).findSome? (fun c =>
        if matEq c.mat final then some (stepsOfChain c.mat c.hist)
        else dfsAux final fuel c)

/-- `DepthFirstSearch.solve`: `self._dfs(1, self.initial)`. -/
def dfsSolve (limit : Nat) (initial final : Matrix) : Option (Option (List Step)) :=
  dfsAux final limit { mat := clone initial, hist := [] }

/-! ### src/algorithm/heuristic/genetic.py -/

def POPULATION_SIZE : Nat := 32768

def FINAL_ADAPTIVITY : Int := 123456

/-- `positional_adaptivity`: for every cell of `target`, subtract the squared
Manhattan distance to every cell of `ideal` holding the same value. -/
def positional_adaptivity (target ideal : Matrix) : Int :=
  cellIndices.foldl
    (fun value p =>
      cellIndices.foldl
        (fun v2 q =>
          if fetch ideal q.1 q.2 = fetch target p.1 p.2 then
            v2 - (((p.1 - q.1).natAbs + (p.2 - q.2).natAbs : Nat) ^ 2 : Int)
          else v2)
        value)
    0

/-- An `Individual`: its genes and its adaptivity. -/
structure Individual where
  gene : List Direction
  adaptivity : Int
deriving DecidableEq, Repr

/-- `Individual.clone` (deep copy = identity in the pure model). -/
def Individual.clone (ind : Individual) : Individual := ind

/-- The loop of `Individual.calculate_adaptivity`.  Arguments mirror the loop
state: `prev` is `last_candidate`, `cand` is `candidate`, `i` the enumeration
index, and the list the remaining genes.  On an illegal move the source adds
`i`, breaks, and the `+= positional_adaptivity(last_candidate, final)` after
the loop still runs (with `last_candidate` = the state before the failed
move); on reaching `final` it returns the sentinel immediately; on normal
exhaustion `last_candidate` is the state before the last gene was played.
The source also truncates `self.gene` in the sentinel branch; no claim
depends on the stored gene, so only the adaptivity value is modelled. -/
def calcAdapt (final : Matrix) : Matrix → Matrix → Nat → List Direction → Int
  | prev, _, _, [] => positional_adaptivity prev final
  | _, cand, i, d :: rest =>
      match play_only cand d with
      | none => (i : Int) + positional_adaptivity cand final
      | some c =>
          if matEq c final then FINAL_ADAPTIVITY else calcAdapt final cand c (i + 1) rest

/-- `Individual.calculate_adaptivity` on a genome, starting from clones of the
initial matrix (`last_candidate = candidate = initial.clone()`). -/
def calculate_adaptivity (initial final : Matrix) (gene : List Direction) : Int :=
  calcAdapt final initial initial 0 gene

/-- Whether the replay loop of `calculate_adaptivity` hits the
`candidate == final` branch (same traversal, but reporting which branch
terminates it). -/
def reachesFinal (final : Matrix) : Matrix → List Direction → Bool
  | _, [] => false
  | cand, d :: rest =>
      match play_only cand d with
      | none => false
      | some c => matEq c final || reachesFinal final c rest

/-- The adaptivity-assignment phase of `GeneticAlgorithm._evaluate` (the
method then sorts the population descending and extracts a solution when the
best adaptivity equals the sentinel; the claims below concern the assigned
fitness values, which sorting only permutes). -/
def evalAdaptivities (initial final : Matrix) (pop : List Individual) : List Individual :=
  pop.map (fun ind =>
    { gene := ind.gene, adaptivity := calculate_adaptivity initial final ind.gene })

/-- One iteration of the `GeneticAlgorithm._select` loop on a drawn pair:
`a.clone() if a.adaptivity >= b.adaptivity else b.clone()`. -/
def selectOne (a b : Individual) : Individual :=
  if a.adaptivity ≥ b.adaptivity then a.clone else b.clone

/-- `GeneticAlgorithm._select`: the while loop draws `POPULATION_SIZE` random
pairs (with replacement) and appends the winner of each; the drawn pairs are
the explicit input here. -/
def selectPop (pairs : List (Individual × Individual)) : List Individual :=
  pairs.map (fun p => selectOne p.1 p.2)

/-- `random.randrange(n)` given the raw draw `v`: raises (`none`) when
`n = 0`, otherwise yields a value in `[0, n)`. -/
def randrangeDraw (n v : Nat) : Option Nat := if n = 0 then none else some (v % n)

/-- The `while pos_b == pos_a` resampling loop of `GeneticAlgorithm._mutate`,
over an explicit stream `s` of raw draws (draw `k` yields `s k % n`), with
fuel: `none` for every fuel amount models non-termination. -/
def resampleLoop (n posA : Nat) (s : Nat → Nat) : Nat → Nat → Option Nat
  | _, 0 => none
  | k, fuel + 1 =>
      if s k % n = posA then resampleLoop n posA s (k + 1) fuel else some (s k % n)

/-- The two position draws of `_mutate` for one individual whose mutation
possibility fired: `pos_a = random.randrange(depth_limit)`, then resample
`pos_b` until it differs from `pos_a`. -/
def mutatePositions (n : Nat) (s : Nat → Nat) (fuel : Nat) : Option (Nat × Nat) :=
  match randrangeDraw n (s 0) with
  | none => none
  | some pa =>
      match resampleLoop n pa s 1 fuel with
      | none => none
      | some pb => some (pa, pb)

/-! ### Walks and replays (specification-side notions for the search claims:
legal-move paths between matrices, stated with the source's `play_only`). -/

/-- Play a direction sequence from a matrix; `none` as soon as a move is
illegal. -/
def walkM (m : Matrix) : List Direction → Option Matrix
  | [] => some m
  | d :: ds =>
      match play_only m d with
      | none => none
      | some m' => walkM m' ds

/-- The list of visited states of a walk (start included), `none` when a move
is illegal. -/
def chainOf (m : Matrix) : List Direction → Option (List Matrix)
  | [] => some [m]
  | d :: ds =>
      match play_only m d with
      | none => none
      | some m' => (chainOf m' ds).map (m :: ·)

/-- There is a legal-move path of length `n` from `initial` to (the grid of)
`final`. -/
def reachesIn (initial final : Matrix) (n : Nat) : Prop :=
  ∃ ds : List Direction, ds.length = n ∧
    ∃ m', walkM initial ds = some m' ∧ matEq m' final = true

/-- The puzzle pair is solvable. -/
def Solvable (initial final : Matrix) : Prop := ∃ n, reachesIn initial final n

/-- All genes of a replay are legal and never produce the final matrix (the
loop of `calculate_adaptivity` runs through them without breaking). -/
def cleanReplay (final : Matrix) : Matrix → List Direction → Bool
  | _, [] => true
  | cand, d :: rest =>
      match play_only cand d with
      | none => false
      | some c => !matEq c final && cleanReplay final c rest

/-- All length-3 lists over the given elements. -/
def triples {α : Type} (es : List α) : List (List α) :=
  es.flatMap (fun a => es.flatMap (fun b => es.map (fun c => [a, b, c])))

/-- All 3x3 grids over the given cell values (a finite universe for the
reachable grids; used to bound the search depth). -/
def gridsOver (es : List Int) : List (List (List Int)) := triples (triples es)

/-- The multiset-free entry list of a matrix. -/
def entries (m : Matrix) : List Int := m.arrangement.flatten

/-- The number of 3x3 grids over the entries of `init`: every duplicate-free
chain of grids reachable from `init` is shorter than this. -/
def gridBound (init : Matrix) : Nat := (gridsOver (entries init)).length

/-- Termination measure of the BFS loop: deeper nodes weigh less; `B` bounds
every occurring depth. -/
def measureQ (B : Nat) (q : List Node) : Nat :=
  (q.map (fun n => 5 ^ (B - nodeDepth n))).sum

/-- The history list is a legal parent chain ending at the root `init`: each
matrix arises from its parent by one `play_only` move. -/
def ChainFrom (init : Matrix) : Matrix → List Matrix → Prop
  | m, [] => m = init
  | m, p :: ps => (∃ d, play_only p d = some m) ∧ ChainFrom init p ps

/-- The grids along the node's chain (current matrix and all ancestors) are
pairwise distinct. -/
def ChainNodup (n : Node) : Prop :=
  List.Pairwise (fun a b => matEq a b = false) (n.mat :: n.hist)

/-- A search node reachable by the BFS/DFS expansion discipline from `init`. -/
def NodeOK (init : Matrix) (n : Node) : Prop :=
  ChainFrom init n.mat n.hist ∧ ChainNodup n

/-- Queue depths are non-decreasing front to back. -/
def QueueSorted (q : List Node) : Prop :=
  List.Pairwise (fun a b => nodeDepth a ≤ nodeDepth b) q

/-- Queue depths exceed the front depth by at most one. -/
def QueueWindow : List Node → Prop
  | [] => True
  | h :: t => ∀ x ∈ h :: t, nodeDepth x ≤ nodeDepth h + 1

/-- The node `u` still admits a completion to `final` within the global move
budget `k`: a legal walk from `u.mat` whose states are pairwise distinct and
avoid `u`'s whole chain.  Carrying this through the loop is what makes the
ancestor-only exclusion of the source lossless. -/
def GoodCompletion (final : Matrix) (k : Nat) (u : Node) : Prop :=
  ∃ ds cs t, chainOf u.mat ds = some (u.mat :: cs) ∧
    walkM u.mat ds = some t ∧ matEq t final = true ∧
    nodeDepth u + ds.length ≤ k ∧
    List.Pairwise (fun a b => matEq a b = false) cs ∧
    (∀ x ∈ cs, memMat x (u.mat :: u.hist) = false)

/-- The BFS loop invariant, relative to a move budget `k` for reaching
`final`. -/
def InvQ (init final : Matrix) (k : Nat) (q : List Node) : Prop :=
  (∀ n ∈ q, NodeOK init n) ∧ QueueSorted q ∧ QueueWindow q ∧
    ∃ u ∈ q, GoodCompletion final k u

/-! ### Concrete inputs used by counterexamples and witnesses -/

/-- `123 / 4#5 / 678`, the blank at the centre. -/
def matA : Matrix := { arrangement := [[1, 2, 3], [4, -1, 5], [6, 7, 8]], space := (1, 1) }

/-- `matA` after one LEFT move of the blank. -/
def matAL : Matrix := { arrangement := [[1, 2, 3], [-1, 4, 5], [6, 7, 8]], space := (1, 0) }

/-- `matA` after LEFT then DOWN: `123 / 645 / #78`. -/
def matF : Matrix := { arrangement := [[1, 2, 3], [6, 4, 5], [-1, 7, 8]], space := (2, 0) }

/-- One LEFT, UP, RIGHT, DOWN round trip of the blank around the centre (the
blank returns to the centre; the tiles 1, 2, 4 are 3-cycled, so three rounds
restore the grid). -/
def lurd : List Direction := [Direction.LEFT, Direction.UP, Direction.RIGHT, Direction.DOWN]

/-- Three `lurd` rounds: replaying them from `matA` restores `matA` exactly. -/
def genes12 : List Direction := lurd ++ lurd ++ lurd

/-- A genome that cleanly cycles for `12 * 10289 = 123468` moves, then plays
LEFT (legal) and LEFT again (illegal): its adaptivity is
`123469 + positional_adaptivity matAL matF = 123467`, exceeding the sentinel. -/
def genesCyc : List Direction :=
  (List.replicate 10289 genes12).flatten ++ [Direction.LEFT, Direction.LEFT]

/-- A genome of the same length that reaches `matF` after two moves. -/
def genesHit : List Direction :=
  [Direction.LEFT, Direction.DOWN] ++ List.replicate 123468 Direction.LEFT

/-- An individual carrying `genesHit` (replay reaches `matF` at step 2). -/
def indHit : Individual := { gene := genesHit, adaptivity := 0 }

/-- An individual carrying `genesCyc` (clean cycling, then an illegal move). -/
def indCyc : Individual := { gene := genesCyc, adaptivity := 0 }

/-- `matA` after one RIGHT move of the blank: `123 / 45# / 678`. -/
def matAR : Matrix := { arrangement := [[1, 2, 3], [4, 5, -1], [6, 7, 8]], space := (1, 2) }

/-- `matA` with the blank (centre) and the tile `1` (top-left) exchanged —
two cells that are not orthogonally adjacent, so the pair is not related by a
legal move. -/
def matSwapFar : Matrix :=
  { arrangement := [[-1, 2, 3], [4, 1, 5], [6, 7, 8]], space := (0, 0) }

/-- `matSwapFar` with its corner blank moved RIGHT: `2#3 / 415 / 678`. -/
def matUpF : Matrix := { arrangement := [[2, -1, 3], [4, 1, 5], [6, 7, 8]], space := (0, 1) }

/-- Corner-blank arrangement `#12 / 345 / 678`. -/
def matA0 : Matrix := { arrangement := [[-1, 1, 2], [3, 4, 5], [6, 7, 8]], space := (0, 0) }

/-- `matA0` after one DOWN move of the blank (its fourth and last child). -/
def matAD0 : Matrix := { arrangement := [[3, 1, 2], [-1, 4, 5], [6, 7, 8]], space := (1, 0) }

theorem WF.shape3 {m : Matrix} (h : WF m) : Shape3 m := ⟨h.1, h.2.1⟩

theorem boundary_check_iff {l : List Int} :
    boundary_check l = true ↔ ∀ c ∈ l, 0 ≤ c ∧ c < 3 := by
  simp [boundary_check, MATRIX_SIZE]

theorem toNat_lt_three {r : Int} (h0 : 0 ≤ r) (h3 : r < 3) : r.toNat < 3 := by
  omega

theorem shape3_row_mem {m : Matrix} (hs : Shape3 m) {r : Int}
    (h0 : 0 ≤ r) (h3 : r < 3) : m.arrangement.getD r.toNat [] ∈ m.arrangement := by
  have hlt : r.toNat < m.arrangement.length := by rw [hs.1]; exact toNat_lt_three h0 h3
  rw [List.getD_eq_getElem _ _ hlt]
  exact List.getElem_mem hlt

theorem shape3_row_len {m : Matrix} (hs : Shape3 m) {r : Int}
    (h0 : 0 ≤ r) (h3 : r < 3) : (m.arrangement.getD r.toNat []).length = 3 :=
  hs.2 _ (shape3_row_mem hs h0 h3)

theorem place_shape3 {m : Matrix} (hs : Shape3 m) (r c v : Int) :
    Shape3 (place m r c v) := by
  unfold place
  split
  · constructor
    · simpa using hs.1
    · intro row hrow
      rcases List.mem_or_eq_of_mem_set hrow with h | h
      · exact hs.2 _ h
      · subst h
        simpa using hs.2 _ (shape3_row_mem hs (by
            have := boundary_check_iff.1 (by assumption) r (by simp)
            exact this.1) (by
            have := boundary_check_iff.1 (by assumption) r (by simp)
            exact this.2))
  · exact hs

theorem place_space {m : Matrix} {r c : Int} (v : Int)
    (hb : boundary_check [r, c] = true) :
    (place m r c v).space = if v = SPACE_VALUE then (r, c) else m.space := by
  unfold place
  rw [if_pos hb]

theorem place_arrangement_rows {m : Matrix} {r c : Int} (v : Int)
    (hb : boundary_check [r, c] = true) :
    (place m r c v).arrangement
      = m.arrangement.set r.toNat ((m.arrangement.getD r.toNat []).set c.toNat v) := by
  unfold place
  rw [if_pos hb]

theorem getD_set_self {α : Type} {l : List α} {i : Nat} (h : i < l.length) (x d : α) :
    (l.set i x).getD i d = x := by
  rw [List.getD_eq_getElem?_getD, List.getElem?_set_eq_of_lt _ h, Option.getD_some]

theorem getD_set_other {α : Type} {l : List α} {i j : Nat} (h : i ≠ j) (x d : α) :
    (l.set i x).getD j d = l.getD j d := by
  rw [List.getD_eq_getElem?_getD, List.getElem?_set_ne h, ← List.getD_eq_getElem?_getD]

theorem fetch_place_same {m : Matrix} (hs : Shape3 m) {r c : Int} (v : Int)
    (hb : boundary_check [r, c] = true) :
    fetch (place m r c v) r c = v := by
  have hr := boundary_check_iff.1 hb r (by simp)
  have hc := boundary_check_iff.1 hb c (by simp)
  have hrl : r.toNat < m.arrangement.length := by rw [hs.1]; exact toNat_lt_three hr.1 hr.2
  have hcl : c.toNat < (m.arrangement.getD r.toNat []).length := by
    rw [shape3_row_len hs hr.1 hr.2]; exact toNat_lt_three hc.1 hc.2
  unfold fetch
  rw [if_pos hb, place_arrangement_rows v hb,
    getD_set_self hrl, getD_set_self hcl]

theorem fetch_place_other {m : Matrix} (hs : Shape3 m) {r c : Int} (v : Int) {r' c' : Int}
    (hb : boundary_check [r, c] = true)
    (hb' : boundary_check [r', c'] = true)
    (hne : (r', c') ≠ (r, c)) :
    fetch (place m r c v) r' c' = fetch m r' c' := by
  have hr := boundary_check_iff.1 hb r (by simp)
  have hc := boundary_check_iff.1 hb c (by simp)
  have hr' := boundary_check_iff.1 hb' r' (by simp)
  have hc' := boundary_check_iff.1 hb' c' (by simp)
  unfold fetch
  rw [if_pos hb', if_pos hb', place_arrangement_rows v hb]
  by_cases hrr : r' = r
  · subst hrr
    have hcc : c'.toNat ≠ c.toNat := by
      intro hcontra
      exact hne (by
        have : c' = c := by omega
        rw [this])
    have hrl : r'.toNat < m.arrangement.length := by
      rw [hs.1]; exact toNat_lt_three hr'.1 hr'.2
    rw [getD_set_self hrl, getD_set_other (by omega : c.toNat ≠ c'.toNat)]
  · rw [getD_set_other (by omega : r.toNat ≠ r'.toNat)]

theorem mem_cellIndices_iff {p : Int × Int} :
    p ∈ cellIndices ↔ 0 ≤ p.1 ∧ p.1 < 3 ∧ 0 ≤ p.2 ∧ p.2 < 3 := by
  rcases p with ⟨x, y⟩
  constructor
  · intro h
    fin_cases h <;> norm_num
  · rintro ⟨h1, h2, h3, h4⟩
    have hx : x = 0 ∨ x = 1 ∨ x = 2 := by omega
    have hy : y = 0 ∨ y = 1 ∨ y = 2 := by omega
    rcases hx with h | h | h <;> rcases hy with h' | h' | h' <;> subst h <;> subst h' <;>
      simp [cellIndices]

/-- The value at a well-formed matrix's non-space cell is not the blank. -/
theorem WF.fetch_ne_space {m : Matrix} (h : WF m) {x y : Int}
    (hb : boundary_check [x, y] = true) (hne : (x, y) ≠ m.space) :
    fetch m x y ≠ SPACE_VALUE := by
  intro hcontra
  have hx := boundary_check_iff.1 hb x (by simp)
  have hy := boundary_check_iff.1 hb y (by simp)
  exact hne (h.2.2.2.2 (x, y) (mem_cellIndices_iff.2 ⟨hx.1, hx.2, hy.1, hy.2⟩) hcontra)

/-- Effect of `exchange` when the first cell is the (well-formed) space cell and
the second cell is a distinct in-bounds cell: the space cache moves to the
target, the target value moves to the old space cell. -/
theorem exchange_spec {m : Matrix} (h : WF m) {x y : Int}
    (hb : boundary_check [x, y] = true) (hne : (x, y) ≠ m.space) :
    let m' := exchange m m.space.1 m.space.2 x y
    Shape3 m' ∧ m'.space = (x, y) ∧
      fetch m' x y = SPACE_VALUE ∧
      fetch m' m.space.1 m.space.2 = fetch m x y ∧
      (∀ p : Int × Int, boundary_check [p.1, p.2] = true → p ≠ (x, y) → p ≠ m.space →
        fetch m' p.1 p.2 = fetch m p.1 p.2) := by
  intro m'
  have hsb : boundary_check [m.space.1, m.space.2] = true := h.2.2.1
  have hball : boundary_check [m.space.1, x, m.space.2, y] = true := by
    have h1 := boundary_check_iff.1 hsb m.space.1 (by simp)
    have h2 := boundary_check_iff.1 hsb m.space.2 (by simp)
    have h3 := boundary_check_iff.1 hb x (by simp)
    have h4 := boundary_check_iff.1 hb y (by simp)
    rw [boundary_check_iff]
    intro c hc
    simp at hc
    rcases hc with h' | h' | h' | h' <;> omega
  have hv : fetch m x y ≠ SPACE_VALUE := h.fetch_ne_space hb hne
  have hm'eq : m' = place (place m m.space.1 m.space.2 (fetch m x y)) x y SPACE_VALUE := by
    show exchange m m.space.1 m.space.2 x y = _
    unfold exchange
    rw [if_pos hball, h.2.2.2.1]
  have hs1 : Shape3 (place m m.space.1 m.space.2 (fetch m x y)) :=
    place_shape3 h.shape3 _ _ _
  have hs2 : Shape3 m' := by rw [hm'eq]; exact place_shape3 hs1 _ _ _
  refine ⟨hs2, ?_, ?_, ?_, ?_⟩
  · rw [hm'eq, place_space _ hb, if_pos rfl]
  · rw [hm'eq, fetch_place_same hs1 _ hb]
  · rw [hm'eq, fetch_place_other hs1 _ hb hsb (by
      intro hcontra
      exact hne (by rw [← hcontra])),
      fetch_place_same h.shape3 _ hsb]
  · intro p hbp hpxy hpsp
    rw [hm'eq, fetch_place_other hs1 _ hb hbp (by
        intro hcontra
        exact hpxy (by rcases p with ⟨p1, p2⟩; simpa using hcontra)),
      fetch_place_other h.shape3 _ hsb hbp (by
        intro hcontra
        exact hpsp (by
          rcases p with ⟨p1, p2⟩
          rcases hm : m.space with ⟨s1, s2⟩
          rw [hm] at hcontra
          simpa using hcontra))]

/-- `play_only` succeeds exactly when the destination cell is in bounds. -/
theorem play_only_eq_some {m : Matrix} {d : Direction} {m' : Matrix} :
    play_only m d = some m' ↔
      boundary_check [m.space.1 + d.delta.1, m.space.2 + d.delta.2] = true ∧
        m' = exchange m m.space.1 m.space.2
          (m.space.1 + d.delta.1) (m.space.2 + d.delta.2) := by
  unfold play_only clone
  constructor
  · intro h
    split at h
    · exact ⟨by assumption, by simpa using h.symm⟩
    · exact absurd h (by simp)
  · rintro ⟨hb, rfl⟩
    rw [if_pos hb]

theorem play_only_none_iff {m : Matrix} {d : Direction} :
    play_only m d = none ↔
      boundary_check [m.space.1 + d.delta.1, m.space.2 + d.delta.2] = false := by
  unfold play_only
  split <;> simp_all

/-- The destination of a legal move is never the current space cell (every
direction has a nonzero offset). -/
theorem play_only_target_ne {m : Matrix} (d : Direction) :
    (m.space.1 + d.delta.1, m.space.2 + d.delta.2) ≠ m.space := by
  rcases hm : m.space with ⟨s1, s2⟩
  cases d <;> simp [Direction.delta]

/-- A legal move preserves well-formedness (part of claim C9). -/
theorem play_only_WF {m m' : Matrix} (h : WF m) (d : Direction)
    (hp : play_only m d = some m') : WF m' := by
  rw [play_only_eq_some] at hp
  obtain ⟨hb, rfl⟩ := hp
  obtain ⟨hs2, hsp, hfxy, hfsp, hother⟩ := exchange_spec h hb (play_only_target_ne d)
  set x := m.space.1 + d.delta.1
  set y := m.space.2 + d.delta.2
  set m' := exchange m m.space.1 m.space.2 x y with hm'
  refine ⟨hs2.1, hs2.2, by rw [hsp]; exact hb, by rw [hsp]; exact hfxy, ?_⟩
  intro p hp hpspace
  rw [hsp]
  by_cases hxy : p = (x, y)
  · exact hxy
  · exfalso
    have hbp : boundary_check [p.1, p.2] = true := by
      rw [boundary_check_iff]
      intro c hc
      have := mem_cellIndices_iff.1 hp
      simp at hc
      rcases hc with h' | h' <;> subst h' <;> omega
    by_cases hpsp : p = m.space
    · rw [hpsp] at hpspace
      rw [hfsp] at hpspace
      exact h.fetch_ne_space hb (play_only_target_ne d) hpspace
    · rw [hother p hbp hxy hpsp] at hpspace
      exact hpsp (h.2.2.2.2 p hp hpspace)

/-- Generic shape of the accumulation loops in `play` / `play_towards`. -/
theorem foldl_guard_filterMap {α β : Type} (f : β → Option α) (step : List α → β → List α)
    (hstep : ∀ acc d, step acc d = acc ++ (f d).toList) :
    ∀ (ds : List β) (acc : List α), ds.foldl step acc = acc ++ ds.filterMap f := by
  intro ds
  induction ds with
  | nil => intro acc; simp
  | cons d ds ih =>
    intro acc
    rw [List.foldl_cons, hstep, ih]
    cases hf : f d <;> simp [hf]

/-- `play` with no forbidden directions is `play_only` applied in the fixed
enum order LEFT, UP, RIGHT, DOWN, keeping the legal results (claim C8). -/
theorem play_eq_filterMap (m : Matrix) :
    play m [] = DIRECTIONS.filterMap (play_only m) := by
  unfold play
  rw [foldl_guard_filterMap (play_only m)]
  · simp
  · intro acc d
    unfold play_only clone
    simp only [List.not_mem_nil, if_false]
    split <;> simp

/-- `play_towards` is `play_only` applied along the requested directions. -/
theorem play_towards_eq_filterMap (m : Matrix) (ds : List Direction) :
    play_towards m ds = ds.filterMap (play_only m) := by
  unfold play_towards
  rw [foldl_guard_filterMap (play_only m)]
  · simp
  · intro acc d
    unfold play_only clone
    split <;> simp

/-- `play` with a forbidden list keeps the legal `play_only` results of the
non-forbidden directions, still in enum order. -/
theorem play_eq_filterMap_general (m : Matrix) (fb : List Direction) :
    play m fb = DIRECTIONS.filterMap (fun d => if d ∈ fb then none else play_only m d) := by
  unfold play
  rw [foldl_guard_filterMap (fun d => if d ∈ fb then none else play_only m d)]
  · simp
  · intro acc d
    unfold play_only clone
    split
    · simp_all
    · split <;> simp_all

theorem mem_play_exists {m x : Matrix} {fb : List Direction} (hx : x ∈ play m fb) :
    ∃ d, play_only m d = some x := by
  rw [play_eq_filterMap_general] at hx
  obtain ⟨d, _, hd⟩ := List.mem_filterMap.1 hx
  split at hd
  · exact absurd hd (by simp)
  · exact ⟨d, hd⟩

theorem mem_play_towards_exists {m x : Matrix} {ds : List Direction}
    (hx : x ∈ play_towards m ds) : ∃ d, play_only m d = some x := by
  rw [play_towards_eq_filterMap] at hx
  obtain ⟨d, _, hd⟩ := List.mem_filterMap.1 hx
  exact ⟨d, hd⟩

theorem notmem_ne {l : List Int} {v : Int} (h : v ∉ l) : ∀ x ∈ l, x ≠ v :=
  fun _ hx hxv => h (hxv ▸ hx)

set_option maxHeartbeats 3000000 in
/-- The constructor applied to data passing its validation produces a
well-formed matrix (part of claim C9). -/
theorem mkMatrix_WF {data : List (List Int)} (hwf : WFData data) : WF (mkMatrix data) := by
  obtain ⟨h1, h2, h3⟩ := hwf
  obtain ⟨r0, r1, r2, rfl⟩ := List.length_eq_three.1 h1
  obtain ⟨a, b, c, rfl⟩ := List.length_eq_three.1 (h2 r0 (by simp))
  obtain ⟨d, e, f, rfl⟩ := List.length_eq_three.1 (h2 r1 (by simp))
  obtain ⟨g, h, i, rfl⟩ := List.length_eq_three.1 (h2 r2 (by simp))
  have hcount : ([a, b, c, d, e, f, g, h, i] : List Int).count SPACE_VALUE = 1 := by
    have := h3 SPACE_VALUE (by simp)
    simpa using this
  by_cases ha : a = SPACE_VALUE
  · subst ha
    have hrest : SPACE_VALUE ∉ ([b, c, d, e, f, g, h, i] : List Int) := by
      refine List.count_eq_zero.1 ?_
      rw [List.count_cons] at hcount
      simpa using hcount
    have hb := notmem_ne hrest b (by simp)
    have hc := notmem_ne hrest c (by simp)
    have hd := notmem_ne hrest d (by simp)
    have he := notmem_ne hrest e (by simp)
    have hf := notmem_ne hrest f (by simp)
    have hg := notmem_ne hrest g (by simp)
    have hh := notmem_ne hrest h (by simp)
    have hi := notmem_ne hrest i (by simp)
    simp +decide [WF, mkMatrix, cellIndices, emptyMatrix, place, fetch, boundary_check,
      MATRIX_SIZE, hb, hc, hd, he, hf, hg, hh, hi]
  rw [List.count_cons] at hcount
  simp only [beq_iff_eq, ha, if_false, Nat.add_zero] at hcount
  by_cases hb : b = SPACE_VALUE
  · subst hb
    have hrest : SPACE_VALUE ∉ ([c, d, e, f, g, h, i] : List Int) := by
      refine List.count_eq_zero.1 ?_
      rw [List.count_cons] at hcount
      simpa using hcount
    have hc := notmem_ne hrest c (by simp)
    have hd := notmem_ne hrest d (by simp)
    have he := notmem_ne hrest e (by simp)
    have hf := notmem_ne hrest f (by simp)
    have hg := notmem_ne hrest g (by simp)
    have hh := notmem_ne hrest h (by simp)
    have hi := notmem_ne hrest i (by simp)
    simp +decide [WF, mkMatrix, cellIndices, emptyMatrix, place, fetch, boundary_check,
      MATRIX_SIZE, ha, hc, hd, he, hf, hg, hh, hi]
  rw [List.count_cons] at hcount
  simp only [beq_iff_eq, hb, if_false, Nat.add_zero] at hcount
  by_cases hc : c = SPACE_VALUE
  · subst hc
    have hrest : SPACE_VALUE ∉ ([d, e, f, g, h, i] : List Int) := by
      refine List.count_eq_zero.1 ?_
      rw [List.count_cons] at hcount
      simpa using hcount
    have hd := notmem_ne hrest d (by simp)
    have he := notmem_ne hrest e (by simp)
    have hf := notmem_ne hrest f (by simp)
    have hg := notmem_ne hrest g (by simp)
    have hh := notmem_ne hrest h (by simp)
    have hi := notmem_ne hrest i (by simp)
    simp +decide [WF, mkMatrix, cellIndices, emptyMatrix, place, fetch, boundary_check,
      MATRIX_SIZE, ha, hb, hd, he, hf, hg, hh, hi]
  rw [List.count_cons] at hcount
  simp only [beq_iff_eq, hc, if_false, Nat.add_zero] at hcount
  by_cases hd : d = SPACE_VALUE
  · subst hd
    have hrest : SPACE_VALUE ∉ ([e, f, g, h, i] : List Int) := by
      refine List.count_eq_zero.1 ?_
      rw [List.count_cons] at hcount
      simpa using hcount
    have he := notmem_ne hrest e (by simp)
    have hf := notmem_ne hrest f (by simp)
    have hg := notmem_ne hrest g (by simp)
    have hh := notmem_ne hrest h (by simp)
    have hi := notmem_ne hrest i (by simp)
    simp +decide [WF, mkMatrix, cellIndices, emptyMatrix, place, fetch, boundary_check,
      MATRIX_SIZE, ha, hb, hc, he, hf, hg, hh, hi]
  rw [List.count_cons] at hcount
  simp only [beq_iff_eq, hd, if_false, Nat.add_zero] at hcount
  by_cases he : e = SPACE_VALUE
  · subst he
    have hrest : SPACE_VALUE ∉ ([f, g, h, i] : List Int) := by
      refine List.count_eq_zero.1 ?_
      rw [List.count_cons] at hcount
      simpa using hcount
    have hf := notmem_ne hrest f (by simp)
    have hg := notmem_ne hrest g (by simp)
    have hh := notmem_ne hrest h (by simp)
    have hi := notmem_ne hrest i (by simp)
    simp +decide [WF, mkMatrix, cellIndices, emptyMatrix, place, fetch, boundary_check,
      MATRIX_SIZE, ha, hb, hc, hd, hf, hg, hh, hi]
  rw [List.count_cons] at hcount
  simp only [beq_iff_eq, he, if_false, Nat.add_zero] at hcount
  by_cases hf : f = SPACE_VALUE
  · subst hf
    have hrest : SPACE_VALUE ∉ ([g, h, i] : List Int) := by
      refine List.count_eq_zero.1 ?_
      rw [List.count_cons] at hcount
      simpa using hcount
    have hg := notmem_ne hrest g (by simp)
    have hh := notmem_ne hrest h (by simp)
    have hi := notmem_ne hrest i (by simp)
    simp +decide [WF, mkMatrix, cellIndices, emptyMatrix, place, fetch, boundary_check,
      MATRIX_SIZE, ha, hb, hc, hd, he, hg, hh, hi]
  rw [List.count_cons] at hcount
  simp only [beq_iff_eq, hf, if_false, Nat.add_zero] at hcount
  by_cases hg : g = SPACE_VALUE
  · subst hg
    have hrest : SPACE_VALUE ∉ ([h, i] : List Int) := by
      refine List.count_eq_zero.1 ?_
      rw [List.count_cons] at hcount
      simpa using hcount
    have hh := notmem_ne hrest h (by simp)
    have hi := notmem_ne hrest i (by simp)
    simp +decide [WF, mkMatrix, cellIndices, emptyMatrix, place, fetch, boundary_check,
      MATRIX_SIZE, ha, hb, hc, hd, he, hf, hh, hi]
  rw [List.count_cons] at hcount
  simp only [beq_iff_eq, hg, if_false, Nat.add_zero] at hcount
  by_cases hh : h = SPACE_VALUE
  · subst hh
    have hrest : SPACE_VALUE ∉ ([i] : List Int) := by
      refine List.count_eq_zero.1 ?_
      rw [List.count_cons] at hcount
      simpa using hcount
    have hi := notmem_ne hrest i (by simp)
    simp +decide [WF, mkMatrix, cellIndices, emptyMatrix, place, fetch, boundary_check,
      MATRIX_SIZE, ha, hb, hc, hd, he, hf, hg, hi]
  rw [List.count_cons] at hcount
  simp only [beq_iff_eq, hh, if_false, Nat.add_zero] at hcount
  have hi : i = SPACE_VALUE := by
    rw [List.count_cons] at hcount
    by_contra hi
    simp only [beq_iff_eq, hi, if_false, Nat.add_zero] at hcount
    simp at hcount
  subst hi
  simp +decide [WF, mkMatrix, cellIndices, emptyMatrix, place, fetch, boundary_check,
    MATRIX_SIZE, ha, hb, hc, hd, he, hf, hg, hh]

theorem direction_mem_DIRECTIONS (d : Direction) : d ∈ DIRECTIONS := by
  cases d <;> simp [DIRECTIONS]

theorem clone_eq (m : Matrix) : clone m = m := rfl

/-- The space cache of an `exchange` result is the old cache or one of the two
exchanged cells (no well-formedness needed). -/
theorem exchange_space_cases (m : Matrix) (x1 y1 x2 y2 : Int) :
    (exchange m x1 y1 x2 y2).space = m.space ∨
      (exchange m x1 y1 x2 y2).space = (x1, y1) ∨
      (exchange m x1 y1 x2 y2).space = (x2, y2) := by
  unfold exchange
  split
  · rename_i hball
    have hb1 : boundary_check [x1, y1] = true := by
      have h1 := boundary_check_iff.1 hball x1 (by simp)
      have h2 := boundary_check_iff.1 hball y1 (by simp)
      rw [boundary_check_iff]
      intro c hc
      simp at hc
      rcases hc with h' | h' <;> omega
    have hb2 : boundary_check [x2, y2] = true := by
      have h1 := boundary_check_iff.1 hball x2 (by simp)
      have h2 := boundary_check_iff.1 hball y2 (by simp)
      rw [boundary_check_iff]
      intro c hc
      simp at hc
      rcases hc with h' | h' <;> omega
    rw [place_space _ hb2, place_space _ hb1]
    split_ifs <;> simp
  · left; rfl

/-- Claim C8: `play` (the expansion used by the searches) returns at most 4
successors, every successor's cached blank position lies within the grid, and
the successors are exactly the legal `play_only` results in the fixed enum
order LEFT, UP, RIGHT, DOWN (a pure function of the matrix, hence stable
across calls). -/
theorem claim_C8 (m : Matrix) (hsb : boundary_check [m.space.1, m.space.2] = true) :
    (play m []).length ≤ 4 ∧
      (∀ x ∈ play m [], boundary_check [x.space.1, x.space.2] = true) ∧
      play m [] = DIRECTIONS.filterMap (play_only m) := by
  refine ⟨?_, ?_, play_eq_filterMap m⟩
  · rw [play_eq_filterMap m]
    exact List.length_filterMap_le _ _
  · intro x hx
    obtain ⟨d, hd⟩ := mem_play_exists hx
    rw [play_only_eq_some] at hd
    obtain ⟨hb, rfl⟩ := hd
    rcases exchange_space_cases m m.space.1 m.space.2
        (m.space.1 + d.delta.1) (m.space.2 + d.delta.2) with h | h | h <;> rw [h]
    · exact hsb
    · exact hsb
    · exact hb

/-- Witness for claim C8 at the centre-blank matrix. -/
theorem claim_C8_witness :
    boundary_check [matA.space.1, matA.space.2] = true ∧
      ((play matA []).length ≤ 4 ∧
        (∀ x ∈ play matA [], boundary_check [x.space.1, x.space.2] = true) ∧
        play matA [] = DIRECTIONS.filterMap (play_only matA)) :=
  ⟨by decide, claim_C8 matA (by decide)⟩

/-- Claim C9: the blank-position cache stays consistent with the grid (3x3
shape, cache in bounds, pointing at the unique blank cell) for matrices built
by the constructor on well-formed input, by `clone`, and by `play`,
`play_towards`, `play_only` from a consistent matrix — including the two
`place` calls inside `exchange`, one of which rewrites the blank cell. -/
theorem claim_C9 :
    (∀ data, WFData data → WF (mkMatrix data)) ∧
      (∀ m, WF m → WF (clone m)) ∧
      (∀ m fb, WF m → ∀ x ∈ play m fb, WF x) ∧
      (∀ m ds, WF m → ∀ x ∈ play_towards m ds, WF x) ∧
      (∀ m d x, WF m → play_only m d = some x → WF x) := by
  refine ⟨fun _ h => mkMatrix_WF h, fun m h => h, ?_, ?_, fun m d x h hp => play_only_WF h d hp⟩
  · intro m fb h x hx
    obtain ⟨d, hd⟩ := mem_play_exists hx
    exact play_only_WF h d hd
  · intro m ds h x hx
    obtain ⟨d, hd⟩ := mem_play_towards_exists hx
    exact play_only_WF h d hd

/-- Witness for claim C9: the constructor, a clone, a play expansion and a
directed play from the standard example all yield consistent caches. -/
theorem claim_C9_witness :
    WFData [[1, 2, 3], [4, SPACE_VALUE, 5], [6, 7, 8]] ∧
      WF (mkMatrix [[1, 2, 3], [4, SPACE_VALUE, 5], [6, 7, 8]]) ∧
      WF matA ∧ WF (clone matA) ∧
      (∀ x ∈ play matA [], WF x) ∧
      (∀ x ∈ play_towards matA [Direction.DOWN], WF x) :=
  ⟨by decide, claim_C9.1 _ (by decide), by decide, claim_C9.2.1 matA (by decide),
    claim_C9.2.2.1 matA [] (by decide), claim_C9.2.2.2.1 matA [Direction.DOWN] (by decide)⟩

/-- Membership in `differentiate`: the values at differing cells. -/
theorem mem_differentiate_iff {old new : Matrix} {w : Int} :
    w ∈ differentiate old new ↔
      ∃ p ∈ cellIndices, fetch old p.1 p.2 ≠ fetch new p.1 p.2 ∧
        (w = fetch old p.1 p.2 ∨ w = fetch new p.1 p.2) := by
  have haux : ∀ (ps : List (Int × Int)) (acc : List Int),
      (w ∈ ps.foldl
        (fun acc p =>
          if fetch old p.1 p.2 ≠ fetch new p.1 p.2 then
            List.insert (fetch new p.1 p.2) (List.insert (fetch old p.1 p.2) acc)
          else acc) acc ↔
        w ∈ acc ∨ ∃ p ∈ ps, fetch old p.1 p.2 ≠ fetch new p.1 p.2 ∧
          (w = fetch old p.1 p.2 ∨ w = fetch new p.1 p.2)) := by
    intro ps
    induction ps with
    | nil => intro acc; simp
    | cons p ps ih =>
      intro acc
      rw [List.foldl_cons]
      by_cases hc : fetch old p.1 p.2 ≠ fetch new p.1 p.2
      · rw [if_pos hc, ih]
        constructor
        · rintro (hin | ⟨q, hq, h1, h2⟩)
          · rcases List.mem_insert_iff.1 hin with h | hin2
            · exact Or.inr ⟨p, List.mem_cons_self p ps, hc, Or.inr h⟩
            · rcases List.mem_insert_iff.1 hin2 with h | h
              · exact Or.inr ⟨p, List.mem_cons_self p ps, hc, Or.inl h⟩
              · exact Or.inl h
          · exact Or.inr ⟨q, List.mem_cons_of_mem p hq, h1, h2⟩
        · rintro (h | ⟨q, hq, h1, h2⟩)
          · exact Or.inl (List.mem_insert_iff.2 (Or.inr (List.mem_insert_iff.2 (Or.inr h))))
          · rcases List.mem_cons.1 hq with heq | hq'
            · subst heq
              rcases h2 with h2 | h2
              · exact Or.inl
                  (List.mem_insert_iff.2 (Or.inr (List.mem_insert_iff.2 (Or.inl h2))))
              · exact Or.inl (List.mem_insert_iff.2 (Or.inl h2))
            · exact Or.inr ⟨q, hq', h1, h2⟩
      · rw [if_neg hc, ih]
        constructor
        · rintro (h | ⟨q, hq, h1, h2⟩)
          · exact Or.inl h
          · exact Or.inr ⟨q, List.mem_cons_of_mem p hq, h1, h2⟩
        · rintro (h | ⟨q, hq, h1, h2⟩)
          · exact Or.inl h
          · rcases List.mem_cons.1 hq with heq | hq'
            · subst heq
              exact absurd h1 hc
            · exact Or.inr ⟨q, hq', h1, h2⟩
  unfold differentiate
  rw [haux]
  simp

theorem differentiate_nodup (old new : Matrix) : (differentiate old new).Nodup := by
  have haux : ∀ (ps : List (Int × Int)) (acc : List Int), acc.Nodup →
      (ps.foldl
        (fun acc p =>
          if fetch old p.1 p.2 ≠ fetch new p.1 p.2 then
            List.insert (fetch new p.1 p.2) (List.insert (fetch old p.1 p.2) acc)
          else acc) acc).Nodup := by
    intro ps
    induction ps with
    | nil => intro acc h; simpa using h
    | cons p ps ih =>
      intro acc h
      rw [List.foldl_cons]
      split
      · exact ih _ (h.insert.insert)
      · exact ih _ h
  exact haux _ _ List.nodup_nil

theorem length_eq_two_of_mem_iff {l : List Int} (hn : l.Nodup) {a b : Int} (hab : a ≠ b)
    (h : ∀ w, w ∈ l ↔ w = a ∨ w = b) : l.length = 2 := by
  have htf : l.toFinset = {a, b} := by
    ext w
    simp [h w]
  rw [← List.toFinset_card_of_nodup hn, htf]
  exact Finset.card_pair hab

/-- The difference set of a matrix and its one-move successor is exactly
`{SPACE_VALUE, v}` where `v` is the tile that moved. -/
theorem differentiate_play_only {m m' : Matrix} (hm : WF m) {d : Direction}
    (hp : play_only m d = some m') :
    ∀ w, w ∈ differentiate m m' ↔
      w = SPACE_VALUE ∨ w = fetch m (m.space.1 + d.delta.1) (m.space.2 + d.delta.2) := by
  rw [play_only_eq_some] at hp
  obtain ⟨hb, rfl⟩ := hp
  obtain ⟨hs2, hsp, hfxy, hfsp, hother⟩ := exchange_spec hm hb (play_only_target_ne d)
  set x := m.space.1 + d.delta.1 with hxdef
  set y := m.space.2 + d.delta.2 with hydef
  have hsb : boundary_check [m.space.1, m.space.2] = true := hm.2.2.1
  have hvne : fetch m x y ≠ SPACE_VALUE := hm.fetch_ne_space hb (play_only_target_ne d)
  have hspmem : m.space ∈ cellIndices := by
    have h1 := boundary_check_iff.1 hsb m.space.1 (by simp)
    have h2 := boundary_check_iff.1 hsb m.space.2 (by simp)
    exact mem_cellIndices_iff.2 ⟨h1.1, h1.2, h2.1, h2.2⟩
  have hxymem : (x, y) ∈ cellIndices := by
    have h1 := boundary_check_iff.1 hb x (by simp)
    have h2 := boundary_check_iff.1 hb y (by simp)
    exact mem_cellIndices_iff.2 ⟨h1.1, h1.2, h2.1, h2.2⟩
  intro w
  rw [mem_differentiate_iff]
  constructor
  · rintro ⟨p, hpmem, hpd, hpw⟩
    by_cases hpxy : p = (x, y)
    · subst hpxy
      rcases hpw with rfl | rfl
      · exact Or.inr rfl
      · rw [hfxy]
        exact Or.inl rfl
    · by_cases hpsp : p = m.space
      · subst hpsp
        rcases hpw with rfl | rfl
        · rw [hm.2.2.2.1]
          exact Or.inl rfl
        · rw [hfsp]
          exact Or.inr rfl
      · exfalso
        have hbp : boundary_check [p.1, p.2] = true := by
          have := mem_cellIndices_iff.1 hpmem
          rw [boundary_check_iff]
          intro c hc
          simp at hc
          rcases hc with h' | h' <;> omega
        exact hpd (hother p hbp hpxy hpsp).symm
  · have hxyne : (x, y) ≠ m.space := play_only_target_ne d
    rintro (rfl | rfl)
    · refine ⟨m.space, hspmem, ?_, Or.inl hm.2.2.2.1.symm⟩
      rw [hm.2.2.2.1, hfsp]
      exact fun hcontra => hvne hcontra.symm
    · refine ⟨(x, y), hxymem, ?_, Or.inl rfl⟩
      rw [hfxy]
      exact fun hcontra => hvne hcontra

/-- Core fact shared by several claims: `buildStep` succeeds on a matrix and
its one-move successor, and the click is the moved tile. -/
theorem buildStep_of_play_only {m m' : Matrix} (hm : WF m) {d : Direction}
    (hp : play_only m d = some m') :
    ∃ s, buildStep m m' = some s ∧ s.click ≠ SPACE_VALUE ∧ s.target = m' ∧
      (∀ w, w ∈ differentiate m m' ↔ (w = SPACE_VALUE ∨ w = s.click)) := by
  have hmem := differentiate_play_only hm hp
  rw [play_only_eq_some] at hp
  obtain ⟨hb, hm'⟩ := hp
  set x := m.space.1 + d.delta.1
  set y := m.space.2 + d.delta.2
  set v := fetch m x y with hvdef
  have hvne : v ≠ SPACE_VALUE := hm.fetch_ne_space hb (play_only_target_ne d)
  have hlen : (differentiate m m').length = 2 :=
    length_eq_two_of_mem_iff (differentiate_nodup m m') (Ne.symm hvne) hmem
  have hspmem : SPACE_VALUE ∈ differentiate m m' := (hmem SPACE_VALUE).2 (Or.inl rfl)
  have hvmem : v ∈ differentiate m m' := (hmem v).2 (Or.inr rfl)
  have hfind : (differentiate m m').find? (fun w => w != SPACE_VALUE) = some v := by
    have hsome : ((differentiate m m').find? (fun w => w != SPACE_VALUE)).isSome := by
      rw [List.find?_isSome]
      exact ⟨v, hvmem, by simpa using hvne⟩
    obtain ⟨w, hw⟩ := Option.isSome_iff_exists.1 hsome
    have hwp := List.find?_some hw
    have hwmem : w ∈ differentiate m m' := List.mem_of_find?_eq_some hw
    have hwv : w = v := by
      rcases (hmem w).1 hwmem with rfl | h
      · simp at hwp
      · exact h
    rw [hw, hwv]
  refine ⟨{ click := v, target := clone m' }, ?_, hvne, rfl, ?_⟩
  · unfold buildStep
    rw [if_pos ⟨hlen, hspmem⟩, hfind]
  · exact hmem

/-- Claim C3: the `InvalidStepException` branch is unreachable for a pair
produced by one legal move, and the click is the unique non-blank value whose
position differs. -/
theorem claim_C3 (m : Matrix) (d : Direction) (m' : Matrix) (hm : WF m)
    (hp : play_only m d = some m') :
    ∃ s, buildStep m m' = some s ∧ s.click ≠ SPACE_VALUE ∧
      (∀ w, w ∈ differentiate m m' ↔ (w = SPACE_VALUE ∨ w = s.click)) := by
  obtain ⟨s, h1, h2, _, h4⟩ := buildStep_of_play_only hm hp
  exact ⟨s, h1, h2, h4⟩

/-- Witness for claim C3 at the centre-blank matrix moved RIGHT. -/
theorem claim_C3_witness :
    WF matA ∧ play_only matA Direction.RIGHT = some matAR ∧
      (∃ s, buildStep matA matAR = some s ∧ s.click ≠ SPACE_VALUE ∧
        (∀ w, w ∈ differentiate matA matAR ↔ (w = SPACE_VALUE ∨ w = s.click))) :=
  ⟨by decide, by decide, claim_C3 matA Direction.RIGHT matAR (by decide) (by decide)⟩

/-- `SolutionStep.__init__` raises exactly when the difference set is not a
two-element set containing the blank (the amended claim C2). -/
theorem claim_C2_amended (old new : Matrix) :
    buildStep old new = none ↔
      ¬((differentiate old new).length = 2 ∧ SPACE_VALUE ∈ differentiate old new) := by
  unfold buildStep
  constructor
  · intro h hguard
    rw [if_pos hguard] at h
    obtain ⟨hlen, hmem⟩ := hguard
    have hnodup := differentiate_nodup old new
    obtain ⟨a, b, hab⟩ := List.length_eq_two.1 hlen
    rw [hab] at hmem hnodup h
    have hne : a ≠ b := by
      intro hcontra
      subst hcontra
      simp at hnodup
    rcases List.mem_cons.1 hmem with heq | hmem'
    · rw [← heq] at h hne
      have hfind : ([SPACE_VALUE, b].find? (fun v => v != SPACE_VALUE)) = some b := by
        have hba : (b != SPACE_VALUE) = true := by simpa using (Ne.symm hne)
        simp [List.find?, hba]
      rw [hfind] at h
      exact absurd h (by simp)
    · have hbspace : b = SPACE_VALUE := by
        have := hmem'
        simp at this
        exact this.symm
      subst hbspace
      have hna : (a != SPACE_VALUE) = true := by simpa using hne
      have hfind : ([a, SPACE_VALUE].find? (fun v => v != SPACE_VALUE)) = some a := by
        simp [List.find?, hna]
      rw [hfind] at h
      exact absurd h (by simp)
  · intro hguard
    rw [if_neg hguard]

/-- Witness for the amended claim C2: a pair differing in four values is
rejected. -/
theorem claim_C2_amended_witness :
    (buildStep matA matF = none ↔
      ¬((differentiate matA matF).length = 2 ∧ SPACE_VALUE ∈ differentiate matA matF)) ∧
      buildStep matA matF = none :=
  ⟨claim_C2_amended matA matF, (claim_C2_amended matA matF).2 (by decide)⟩

/-- Counterexample to claim C2 as stated: `matA` and `matSwapFar` (the blank
at the centre merely exchanged with the tile `1` at the non-adjacent top-left
corner) are not related by one legal move — no direction maps `matA` to that
grid (`DIRECTIONS` lists every `Direction`) — yet the `SolutionStep`
constructor accepts the pair, reporting click `1`, instead of raising. -/
theorem claim_C2_counterexample :
    buildStep matA matSwapFar = some { click := 1, target := matSwapFar } ∧
      DIRECTIONS.all (fun d =>
        (play_only matA d).all (fun m' => !matEq m' matSwapFar)) = true := by
  decide

/-- Counterexample to claim C7 as stated: on a tie the clone of `a`, the
FIRST sampled individual, is appended (`a.clone() if a.adaptivity >=
b.adaptivity else b.clone()`), not the second. -/
theorem claim_C7_counterexample :
    selectOne { gene := [Direction.LEFT], adaptivity := 5 }
        { gene := [Direction.UP], adaptivity := 5 }
      = { gene := [Direction.LEFT], adaptivity := 5 } ∧
      ({ gene := [Direction.LEFT], adaptivity := 5 } : Individual)
        ≠ { gene := [Direction.UP], adaptivity := 5 } := by
  decide

/-- Amended claim C7: on an equal-fitness pair the FIRST sampled individual is
cloned into the new population; the selection loop builds exactly
`POPULATION_SIZE` winners, so the new population has the same size as the old
one. -/
theorem claim_C7_amended (a b : Individual) (pairs : List (Individual × Individual))
    (pop : List Individual) (hab : a.adaptivity = b.adaptivity)
    (hpairs : pairs.length = POPULATION_SIZE) (hpop : pop.length = POPULATION_SIZE) :
    selectOne a b = a ∧ (selectPop pairs).length = pop.length := by
  constructor
  · unfold selectOne Individual.clone
    rw [if_pos (le_of_eq hab.symm)]
  · unfold selectPop
    rw [List.length_map, hpairs, hpop]

/-- Witness for the amended claim C7 on a two-singleton-population-sized
instance is impossible (the population size is fixed at 32768), so the witness
uses replicated lists of that length. -/
theorem claim_C7_amended_witness :
    ({ gene := [Direction.LEFT], adaptivity := 5 } : Individual).adaptivity
        = ({ gene := [Direction.UP], adaptivity := 5 } : Individual).adaptivity ∧
      (List.replicate POPULATION_SIZE
        (({ gene := [], adaptivity := 0 } : Individual),
          ({ gene := [], adaptivity := 1 } : Individual))).length = POPULATION_SIZE ∧
      (List.replicate POPULATION_SIZE ({ gene := [], adaptivity := 0 } : Individual)).length
        = POPULATION_SIZE ∧
      (selectOne { gene := [Direction.LEFT], adaptivity := 5 }
          { gene := [Direction.UP], adaptivity := 5 }
        = { gene := [Direction.LEFT], adaptivity := 5 } ∧
        (selectPop (List.replicate POPULATION_SIZE
          (({ gene := [], adaptivity := 0 } : Individual),
            ({ gene := [], adaptivity := 1 } : Individual)))).length
          = (List.replicate POPULATION_SIZE ({ gene := [], adaptivity := 0 } : Individual)).length) :=
  ⟨rfl, List.length_replicate _ _, List.length_replicate _ _,
    claim_C7_amended _ _ _ _ rfl (List.length_replicate _ _) (List.length_replicate _ _)⟩

/-- Claim C10: the `_mutate` position-resampling terminates only for genome
length at least 2.  (i) With `depth_limit = 1` every draw is `0 = pos_a`, so
the `while pos_b == pos_a` loop never exits, whatever the random stream and
however long it runs.  (ii) With `depth_limit = 0` the `randrange(0)` call
itself fails.  (iii) With the limit at least 2 the loop exits as soon as the
stream yields any value not congruent to `pos_a`, and (iv) such a value below
the limit always exists. -/
theorem claim_C10 :
    (∀ s fuel, mutatePositions 1 s fuel = none) ∧
      (∀ s fuel, mutatePositions 0 s fuel = none) ∧
      (∀ n s k fuel posA, (∃ j, k ≤ j ∧ j < k + fuel ∧ s j % n ≠ posA) →
        ∃ v, resampleLoop n posA s k fuel = some v ∧ v ≠ posA) ∧
      (∀ n posA, 2 ≤ n → posA < n → ∃ v, v < n ∧ v ≠ posA) := by
  refine ⟨?_, ?_, ?_, ?_⟩
  · intro s fuel
    unfold mutatePositions randrangeDraw
    simp only [if_neg (by norm_num : (1 : Nat) ≠ 0), Nat.mod_one]
    have haux : ∀ fuel k, resampleLoop 1 0 s k fuel = none := by
      intro fuel
      induction fuel with
      | zero => intro k; rfl
      | succ f ih =>
        intro k
        unfold resampleLoop
        rw [if_pos (Nat.mod_one _)]
        exact ih (k + 1)
    rw [haux fuel 1]
  · intro s fuel
    unfold mutatePositions randrangeDraw
    simp
  · intro n s
    intro k fuel
    induction fuel generalizing k with
    | zero =>
      intro posA h
      obtain ⟨j, h1, h2, _⟩ := h
      omega
    | succ f ih =>
      intro posA h
      obtain ⟨j, h1, h2, h3⟩ := h
      unfold resampleLoop
      by_cases hk : s k % n = posA
      · rw [if_pos hk]
        refine ih (k + 1) posA ⟨j, ?_, by omega, h3⟩
        rcases Nat.eq_or_lt_of_le h1 with rfl | h1'
        · exact absurd hk h3
        · omega
      · rw [if_neg hk]
        exact ⟨s k % n, rfl, hk⟩
  · intro n posA h2 _
    by_cases h0 : posA = 0
    · exact ⟨1, by omega, by omega⟩
    · exact ⟨0, by omega, Ne.symm h0⟩

/-- Witness for claim C10: an identity stream with the limit 2 exits the
resampling loop at its first draw. -/
theorem claim_C10_witness :
    (mutatePositions 1 (fun k => k) 5 = none) ∧
      (mutatePositions 0 (fun k => k) 5 = none) ∧
      (∃ j, 1 ≤ j ∧ j < 1 + 5 ∧ (fun k => k) j % 2 ≠ 0) ∧
      (∃ v, resampleLoop 2 0 (fun k => k) 1 5 = some v ∧ v ≠ 0) ∧
      (2 ≤ 2 ∧ (0 : Nat) < 2 ∧ ∃ v, v < 2 ∧ v ≠ 0) :=
  ⟨claim_C10.1 _ 5, claim_C10.2.1 _ 5, ⟨1, by norm_num⟩,
    claim_C10.2.2.1 2 (fun k => k) 1 5 0 ⟨1, by norm_num⟩,
    by norm_num, by norm_num, claim_C10.2.2.2 2 0 (by norm_num) (by norm_num)⟩

/-- The step equation of `calcAdapt` on a clean (legal, non-final) move. -/
theorem calcAdapt_step {final s sNext : Matrix} {d : Direction}
    (h : play_only s d = some sNext) (hne : matEq sNext final = false)
    (prev : Matrix) (i : Nat) (rest : List Direction) :
    calcAdapt final prev s i (d :: rest) = calcAdapt final s sNext (i + 1) rest := by
  simp only [calcAdapt]
  rw [h]
  simp [hne]

/-- The step equation of `calcAdapt` on a move that reaches `final`: the
sentinel is returned and the remaining genes are short-circuited. -/
theorem calcAdapt_hit {final s sNext : Matrix} {d : Direction}
    (h : play_only s d = some sNext) (hfin : matEq sNext final = true)
    (prev : Matrix) (i : Nat) (rest : List Direction) :
    calcAdapt final prev s i (d :: rest) = FINAL_ADAPTIVITY := by
  simp only [calcAdapt]
  rw [h]
  simp [hfin]

/-- The replay loop after a clean prefix ending in an illegal move: the
adaptivity is the number of successfully played steps plus the positional
term of the last successfully reached state — the `+=
positional_adaptivity(last_candidate, final)` after the loop runs even after
a `break`. -/
theorem calcAdapt_illegal (final : Matrix) :
    ∀ (g1 : List Direction) (init t prev : Matrix) (i : Nat) (d : Direction)
      (rest : List Direction),
      cleanReplay final init g1 = true → walkM init g1 = some t → play_only t d = none →
      calcAdapt final prev init i (g1 ++ d :: rest)
        = (i + g1.length : Int) + positional_adaptivity t final := by
  intro g1
  induction g1 with
  | nil =>
    intro init t prev i d rest _ hw hill
    have ht : t = init := by
      unfold walkM at hw
      exact (Option.some_inj.1 hw).symm
    subst ht
    rw [List.nil_append]
    simp only [calcAdapt]
    rw [hill]
    simp
  | cons x xs ih =>
    intro init t prev i d rest hclean hw hill
    cases hp : play_only init x with
    | none =>
      unfold cleanReplay at hclean
      rw [hp] at hclean
      exact absurd hclean (by simp)
    | some c =>
      unfold cleanReplay at hclean
      rw [hp] at hclean
      rw [Bool.and_eq_true, Bool.not_eq_true'] at hclean
      obtain ⟨hcne, hcclean⟩ := hclean
      unfold walkM at hw
      rw [hp] at hw
      rw [List.cons_append, calcAdapt_step hp hcne prev i (xs ++ d :: rest),
        ih c t init (i + 1) d rest hcclean hw hill]
      simp only [List.length_cons]
      push_cast
      ring

/-- Claim C5 amended: on a genome whose first `g1.length` genes replay cleanly
to `t` and whose next gene is an illegal move, the fitness is the number of
steps successfully played PLUS `positional_adaptivity` of the last valid
state (the claim's "with no other term added" fails: `break` does not skip
the final accumulation line). -/
theorem claim_C5_amended (initial final t : Matrix) (g1 : List Direction) (d : Direction)
    (rest : List Direction) (hclean : cleanReplay final initial g1 = true)
    (hw : walkM initial g1 = some t) (hill : play_only t d = none) :
    calculate_adaptivity initial final (g1 ++ d :: rest)
      = (g1.length : Int) + positional_adaptivity t final := by
  unfold calculate_adaptivity
  rw [calcAdapt_illegal final g1 initial t initial 0 d rest hclean hw hill]
  push_cast
  ring

/-- Witness for the amended claim C5: a genome whose very first move is
illegal gets fitness `0 + positional_adaptivity initial final = -2 ≠ 0`. -/
theorem claim_C5_amended_witness :
    cleanReplay matUpF matSwapFar [] = true ∧
      walkM matSwapFar [] = some matSwapFar ∧
      play_only matSwapFar Direction.UP = none ∧
      calculate_adaptivity matSwapFar matUpF ([] ++ Direction.UP :: [])
        = (([] : List Direction).length : Int) + positional_adaptivity matSwapFar matUpF ∧
      positional_adaptivity matSwapFar matUpF = -2 :=
  ⟨by decide, by decide, by decide,
    claim_C5_amended matSwapFar matUpF matSwapFar [] Direction.UP [] (by decide) (by decide)
      (by decide), by decide⟩

/-- Counterexample to claim C5 as stated: the genome `[UP]` from `matSwapFar`
(corner blank) hits an illegal move at index 0 without reaching `matUpF`, yet
its fitness is `-2`, not the claimed `0` — the positional term was added. -/
theorem claim_C5_counterexample :
    play_only matSwapFar Direction.UP = none ∧
      reachesFinal matUpF matSwapFar [Direction.UP] = false ∧
      calculate_adaptivity matSwapFar matUpF [Direction.UP] = -2 ∧
      ((-2 : Int) ≠ 0) := by
  decide

theorem mem_expandNode {n c : Node} :
    c ∈ expandNode n ↔
      ∃ x ∈ play n.mat [], memMat x n.hist = false ∧
        c = { mat := x, hist := n.mat :: n.hist } := by
  unfold expandNode
  constructor
  · intro h
    obtain ⟨x, hx, rfl⟩ := List.mem_map.1 h
    obtain ⟨hxp, hxf⟩ := List.mem_filter.1 hx
    refine ⟨x, hxp, ?_, rfl⟩
    simpa using hxf
  · rintro ⟨x, hxp, hxf, rfl⟩
    exact List.mem_map.2 ⟨x, List.mem_filter.2 ⟨hxp, by simpa using hxf⟩, rfl⟩

theorem chainFrom_wf {init : Matrix} (hinit : WF init) :
    ∀ (hist : List Matrix) (m : Matrix), ChainFrom init m hist → WF m := by
  intro hist
  induction hist with
  | nil =>
    intro m h
    simp only [ChainFrom] at h
    rw [h]
    exact hinit
  | cons p ps ih =>
    intro m h
    obtain ⟨⟨d, hd⟩, hch⟩ := h
    exact play_only_WF (ih p hch) d hd

theorem stepsOfChain_length :
    ∀ (hist : List Matrix) (m : Matrix) (steps : List Step),
      stepsOfChain m hist = some steps → steps.length = hist.length := by
  intro hist
  induction hist with
  | nil =>
    intro m steps h
    simp only [stepsOfChain] at h
    rw [← Option.some_inj.1 h]
    rfl
  | cons p ps ih =>
    intro m steps h
    simp only [stepsOfChain] at h
    cases hrest : stepsOfChain p ps with
    | none => rw [hrest] at h; exact absurd h (by simp)
    | some rest =>
      rw [hrest] at h
      cases hbs : buildStep p m with
      | none => rw [hbs] at h; exact absurd h (by simp)
      | some s =>
        rw [hbs] at h
        simp at h
        rw [← h]
        simp [ih p rest hrest]

/-- A valid chain from a well-formed root reconstructs successfully into one
step per parent link. -/
theorem stepsOfChain_of_chain {init : Matrix} (hinit : WF init) :
    ∀ (hist : List Matrix) (m : Matrix), ChainFrom init m hist →
      ∃ steps, stepsOfChain m hist = some steps ∧ steps.length = hist.length := by
  intro hist
  induction hist with
  | nil =>
    intro m _
    exact ⟨[], rfl, rfl⟩
  | cons p ps ih =>
    intro m h
    obtain ⟨⟨d, hd⟩, hch⟩ := h
    obtain ⟨rest, hrest, hlen⟩ := ih p hch
    have hwfp : WF p := chainFrom_wf hinit ps p hch
    obtain ⟨s, hs, _, _, _⟩ := buildStep_of_play_only hwfp hd
    refine ⟨rest ++ [s], ?_, by simp [hlen]⟩
    simp only [stepsOfChain]
    rw [hrest, hs]
    rfl

/-- One-step success of the DFS child scan: if every list element is a legal
move of the well-formed `initial` and some element matches `final`, the scan
returns a one-step solution. -/
theorem findSome_one_step {final initial : Matrix} (hwf : WF initial) :
    ∀ (l : List Matrix), (∀ x ∈ l, ∃ d, play_only initial d = some x) →
      (∃ x ∈ l, matEq x final = true) →
      ∃ s, ((l.map (fun c => ({ mat := c, hist := [initial] } : Node))).findSome?
          (fun c => if matEq c.mat final then some (stepsOfChain c.mat c.hist)
            else dfsAux final 0 c)) = some (some [s]) ∧ matEq s.target final = true := by
  intro l
  induction l with
  | nil =>
    rintro _ ⟨x, hx, _⟩
    exact absurd hx (by simp)
  | cons x xs ih =>
    intro hall hex
    rw [List.map_cons, List.findSome?_cons]
    by_cases hx : matEq x final = true
    · rw [if_pos hx]
      obtain ⟨d, hd⟩ := hall x (by simp)
      obtain ⟨s, hs, _, hst, _⟩ := buildStep_of_play_only hwf hd
      have hsteps : stepsOfChain x [initial] = some [s] := by
        simp only [stepsOfChain]
        rw [hs]
        rfl
      exact ⟨s, by simp [hsteps], by rw [hst]; exact hx⟩
    · rw [if_neg hx]
      have hnone : dfsAux final 0 { mat := x, hist := [initial] } = none := rfl
      rw [hnone]
      refine ih (fun y hy => hall y (by simp [hy])) ?_
      obtain ⟨y, hy, hyeq⟩ := hex
      rcases List.mem_cons.1 hy with rfl | hy'
      · exact absurd hyeq hx
      · exact ⟨y, hy', hyeq⟩

theorem dfsAux_length {final : Matrix} :
    ∀ (fuel : Nat) (n : Node) (limit : Nat) (steps : List Step),
      nodeDepth n + fuel = limit → dfsAux final fuel n = some (some steps) →
      steps.length ≤ limit := by
  intro fuel
  induction fuel with
  | zero =>
    intro n limit steps _ h
    exact absurd h (by simp [dfsAux])
  | succ f ih =>
    intro n limit steps hdepth h
    simp only [dfsAux] at h
    obtain ⟨c, hcmem, hcres⟩ := List.exists_of_findSome?_eq_some h
    obtain ⟨x, _, _, rfl⟩ := mem_expandNode.1 hcmem
    split at hcres
    · have hsteps : stepsOfChain x (n.mat :: n.hist) = some steps := by
        simpa using hcres
      have := stepsOfChain_length _ _ _ hsteps
      simp only [List.length_cons] at this
      unfold nodeDepth at hdepth
      omega
    · refine ih _ limit steps ?_ hcres
      unfold nodeDepth at hdepth ⊢
      simp only [List.length_cons]
      omega

/-- The amended claim C4: (i) with `depth_limit = 0` DFS returns no solution
for EVERY pair — also when `initial == final` (the root is never goal-tested,
only children are, so the claimed immediate success never happens); (ii) with
`depth_limit = 1` a pair one legal move apart yields the one-step solution;
(iii) every returned solution has length at most `depth_limit` (but for
`depth_limit ≥ 1` it need not be the one-step one — see the counterexample). -/
theorem claim_C4_amended :
    (∀ initial final, dfsSolve 0 initial final = none) ∧
      (∀ initial final d m', WF initial → play_only initial d = some m' →
        matEq m' final = true →
        ∃ s, dfsSolve 1 initial final = some (some [s]) ∧ matEq s.target final = true) ∧
      (∀ limit initial final steps, dfsSolve limit initial final = some (some steps) →
        steps.length ≤ limit) := by
  refine ⟨fun initial final => rfl, ?_, ?_⟩
  · intro initial final d m' hwf hpm hmeq
    unfold dfsSolve
    simp only [dfsAux, clone_eq]
    have hfilter : (play initial []).filter
        (fun c => !memMat c (({ mat := initial, hist := [] } : Node)).hist)
          = play initial [] :=
      List.filter_eq_self.2 (fun x _ => by simp [memMat])
    unfold expandNode
    rw [hfilter]
    exact findSome_one_step hwf (play initial []) (fun x hx => mem_play_exists hx)
      ⟨m', by
        rw [play_eq_filterMap]
        exact List.mem_filterMap.2 ⟨d, direction_mem_DIRECTIONS d, hpm⟩, hmeq⟩
  · intro limit initial final steps h
    exact dfsAux_length limit _ limit steps (by simp [nodeDepth, dfsSolve]) h

/-- Witness for the amended claim C4 on the spec's own example pair. -/
theorem claim_C4_amended_witness :
    dfsSolve 0 matA matF = none ∧
      (WF matA ∧ play_only matA Direction.RIGHT = some matAR ∧ matEq matAR matAR = true ∧
        ∃ s, dfsSolve 1 matA matAR = some (some [s]) ∧ matEq s.target matAR = true) ∧
      (∀ steps, dfsSolve 1 matA matAR = some (some steps) → steps.length ≤ 1) :=
  ⟨claim_C4_amended.1 matA matF,
    ⟨by decide, by decide, by decide,
      claim_C4_amended.2.1 matA matAR Direction.RIGHT matAR (by decide) (by decide) (by decide)⟩,
    fun steps h => claim_C4_amended.2.2 1 matA matAR steps h⟩

/-- Counterexample to claim C4 as stated: (i) with `depth_limit = 0` and
`initial == final` (= `matA`), DFS returns `none`, not the claimed immediate
empty-step-list success; (ii) `matAD0` is one legal move (DOWN) from `matA0`,
yet with `depth_limit = 11` DFS finds an 11-step solution through the subtree
of the earlier RIGHT child instead of the claimed one-step solution. -/
theorem claim_C4_counterexample :
    dfsSolve 0 matA matA = none ∧
      play_only matA0 Direction.DOWN = some matAD0 ∧
      (∃ steps, dfsSolve 11 matA0 matAD0 = some (some steps) ∧ steps.length = 11) := by
  refine ⟨by decide, by decide, ⟨_, rfl, ?_⟩⟩
  rfl

theorem foldl_le_start {α : Type} (F : Int → α → Int) (hF : ∀ v x, F v x ≤ v) :
    ∀ (l : List α) (a : Int), l.foldl F a ≤ a := by
  intro l
  induction l with
  | nil => intro a; simp
  | cons x xs ih =>
    intro a
    rw [List.foldl_cons]
    exact le_trans (ih (F a x)) (hF a x)

/-- The positional term only subtracts squares: it is never positive. -/
theorem positional_nonpos (target ideal : Matrix) : positional_adaptivity target ideal ≤ 0 := by
  unfold positional_adaptivity
  refine foldl_le_start _ ?_ _ _
  intro v p
  refine foldl_le_start _ ?_ _ _
  intro v2 q
  split
  · have : (0 : Int) ≤ (((p.1 - q.1).natAbs + (p.2 - q.2).natAbs : Nat) ^ 2 : Int) := by
      positivity
    omega
  · exact le_refl v2

/-- A replay that reaches `final` gets exactly the sentinel fitness. -/
theorem calcAdapt_reaches {final : Matrix} :
    ∀ (g : List Direction) (cand : Matrix), reachesFinal final cand g = true →
      ∀ (prev : Matrix) (i : Nat), calcAdapt final prev cand i g = FINAL_ADAPTIVITY := by
  intro g
  induction g with
  | nil =>
    intro cand h
    exact absurd h (by simp [reachesFinal])
  | cons d rest ih =>
    intro cand h prev i
    cases hp : play_only cand d with
    | none =>
      unfold reachesFinal at h
      rw [hp] at h
      exact absurd h (by simp)
    | some c =>
      unfold reachesFinal at h
      rw [hp] at h
      simp only [calcAdapt]
      rw [hp]
      by_cases hc : matEq c final = true
      · simp [hc]
      · rw [Bool.or_eq_true] at h
        rcases h with h | h
        · exact absurd h hc
        · simp only [Bool.not_eq_true] at hc
          simp [hc]
          exact ih c h cand (i + 1)

/-- A replay that does not reach `final` is bounded by
`max (i + genome length - 1) 0`: an illegal break at index `j ≥ i` adds `j`
plus a nonpositive positional term with `j < i + length`, and at `j ≥ i + 1`
the positional term is visited on a non-final grid; a full replay scores only
the nonpositive positional term. -/
theorem calcAdapt_not_reaches {final : Matrix} :
    ∀ (g : List Direction) (cand : Matrix), reachesFinal final cand g = false →
      ∀ (prev : Matrix) (i : Nat),
        calcAdapt final prev cand i g ≤ max ((i : Int) + g.length - 1) 0 := by
  intro g
  induction g with
  | nil =>
    intro cand _ prev i
    simp only [calcAdapt]
    have := positional_nonpos prev final
    omega
  | cons d rest ih =>
    intro cand h prev i
    cases hp : play_only cand d with
    | none =>
      simp only [calcAdapt]
      rw [hp]
      have := positional_nonpos cand final
      simp only [List.length_cons]
      push_cast
      omega
    | some c =>
      unfold reachesFinal at h
      rw [hp] at h
      rw [Bool.or_eq_false_iff] at h
      obtain ⟨hc, hrest⟩ := h
      rw [calcAdapt_step hp hc prev i rest]
      have := ih c hrest cand (i + 1)
      simp only [List.length_cons]
      push_cast at this ⊢
      omega

/-- The amended claim C6: after evaluation, every individual whose replay
reaches `final` has fitness exactly `FINAL_ADAPTIVITY = 123456`, and —
provided genomes are no longer than `123456` (`depth_limit ≤ 123456`) — this
is strictly greater than the fitness of every individual whose replay does
not reach `final`. -/
theorem claim_C6_amended (initial final : Matrix) (pop : List Individual)
    (hlen : ∀ ind ∈ pop, ind.gene.length ≤ 123456) :
    (∀ ind ∈ evalAdaptivities initial final pop,
        reachesFinal final initial ind.gene = true → ind.adaptivity = FINAL_ADAPTIVITY) ∧
      (∀ ind ind2, ind ∈ evalAdaptivities initial final pop →
        ind2 ∈ evalAdaptivities initial final pop →
        reachesFinal final initial ind.gene = true →
        reachesFinal final initial ind2.gene = false →
        ind2.adaptivity < ind.adaptivity) := by
  constructor
  · intro ind hind hreach
    obtain ⟨orig, _, rfl⟩ := List.mem_map.1 hind
    exact calcAdapt_reaches orig.gene initial hreach initial 0
  · intro ind ind2 hind hind2 hreach hnot
    obtain ⟨orig, horig, rfl⟩ := List.mem_map.1 hind
    obtain ⟨orig2, horig2, rfl⟩ := List.mem_map.1 hind2
    have h1 : calculate_adaptivity initial final orig.gene = FINAL_ADAPTIVITY :=
      calcAdapt_reaches orig.gene initial hreach initial 0
    have h2 := calcAdapt_not_reaches orig2.gene initial hnot initial 0
    have h3 := hlen orig2 horig2
    simp only [calculate_adaptivity] at h1 h2 ⊢
    rw [h1]
    unfold FINAL_ADAPTIVITY
    have : (orig2.gene.length : Int) ≤ 123456 := by exact_mod_cast h3
    omega

/-- Witness for the amended claim C6 on a two-individual population: the
two-move hit genome `[LEFT, DOWN]` reaches `matF`, the genome `[UP]` breaks
without reaching it. -/
theorem claim_C6_amended_witness :
    (∀ ind ∈ [({ gene := [Direction.LEFT, Direction.DOWN], adaptivity := 0 } : Individual),
        { gene := [Direction.UP], adaptivity := 0 }], ind.gene.length ≤ 123456) ∧
      (∀ ind ∈ evalAdaptivities matA matF
          [{ gene := [Direction.LEFT, Direction.DOWN], adaptivity := 0 },
            { gene := [Direction.UP], adaptivity := 0 }],
        reachesFinal matF matA ind.gene = true → ind.adaptivity = FINAL_ADAPTIVITY) ∧
      (∀ ind ind2,
        ind ∈ evalAdaptivities matA matF
          [{ gene := [Direction.LEFT, Direction.DOWN], adaptivity := 0 },
            { gene := [Direction.UP], adaptivity := 0 }] →
        ind2 ∈ evalAdaptivities matA matF
          [{ gene := [Direction.LEFT, Direction.DOWN], adaptivity := 0 },
            { gene := [Direction.UP], adaptivity := 0 }] →
        reachesFinal matF matA ind.gene = true →
        reachesFinal matF matA ind2.gene = false →
        ind2.adaptivity < ind.adaptivity) :=
  ⟨by decide,
    (claim_C6_amended matA matF _ (by decide)).1,
    (claim_C6_amended matA matF _ (by decide)).2⟩

theorem cleanReplay_cons_some {final m c : Matrix} {d : Direction} (rest : List Direction)
    (hp : play_only m d = some c) :
    cleanReplay final m (d :: rest) = (!matEq c final && cleanReplay final c rest) := by
  simp only [cleanReplay]
  rw [hp]

theorem cleanReplay_cons_none {final m : Matrix} {d : Direction} (rest : List Direction)
    (hp : play_only m d = none) :
    cleanReplay final m (d :: rest) = false := by
  simp only [cleanReplay]
  rw [hp]

theorem reachesFinal_cons_some {final m c : Matrix} {d : Direction} (rest : List Direction)
    (hp : play_only m d = some c) :
    reachesFinal final m (d :: rest) = (matEq c final || reachesFinal final c rest) := by
  simp only [reachesFinal]
  rw [hp]

theorem reachesFinal_cons_none {final m : Matrix} {d : Direction} (rest : List Direction)
    (hp : play_only m d = none) :
    reachesFinal final m (d :: rest) = false := by
  simp only [reachesFinal]
  rw [hp]

theorem walkM_cons_some {m c : Matrix} {d : Direction} (rest : List Direction)
    (hp : play_only m d = some c) :
    walkM m (d :: rest) = walkM c rest := by
  simp only [walkM]
  rw [hp]

theorem walkM_cons_none {m : Matrix} {d : Direction} (rest : List Direction)
    (hp : play_only m d = none) :
    walkM m (d :: rest) = none := by
  simp only [walkM]
  rw [hp]

theorem walkM_append (xs ys : List Direction) :
    ∀ m, walkM m (xs ++ ys) = (walkM m xs).bind (fun t => walkM t ys) := by
  induction xs with
  | nil => intro m; simp [walkM]
  | cons d rest ih =>
    intro m
    rw [List.cons_append]
    cases hp : play_only m d with
    | none => rw [walkM_cons_none _ hp, walkM_cons_none _ hp]; simp
    | some c => rw [walkM_cons_some _ hp, walkM_cons_some _ hp, ih c]

theorem cleanReplay_append {final : Matrix} (xs : List Direction) :
    ∀ (m t : Matrix) (ys : List Direction), walkM m xs = some t →
      cleanReplay final m xs = true →
      cleanReplay final m (xs ++ ys) = cleanReplay final t ys := by
  induction xs with
  | nil =>
    intro m t ys hw _
    have : t = m := by
      unfold walkM at hw
      exact (Option.some_inj.1 hw).symm
    rw [this]
    rfl
  | cons d rest ih =>
    intro m t ys hw hclean
    cases hp : play_only m d with
    | none =>
      rw [cleanReplay_cons_none _ hp] at hclean
      exact absurd hclean (by simp)
    | some c =>
      rw [walkM_cons_some _ hp] at hw
      rw [cleanReplay_cons_some _ hp, Bool.and_eq_true] at hclean
      rw [List.cons_append, cleanReplay_cons_some _ hp, ih c t ys hw hclean.2, hclean.1]
      simp

theorem reachesFinal_append {final : Matrix} (xs : List Direction) :
    ∀ (m t : Matrix) (ys : List Direction), walkM m xs = some t →
      cleanReplay final m xs = true →
      reachesFinal final m (xs ++ ys) = reachesFinal final t ys := by
  induction xs with
  | nil =>
    intro m t ys hw _
    have : t = m := by
      unfold walkM at hw
      exact (Option.some_inj.1 hw).symm
    rw [this]
    rfl
  | cons d rest ih =>
    intro m t ys hw hclean
    cases hp : play_only m d with
    | none =>
      rw [cleanReplay_cons_none _ hp] at hclean
      exact absurd hclean (by simp)
    | some c =>
      rw [walkM_cons_some _ hp] at hw
      rw [cleanReplay_cons_some _ hp, Bool.and_eq_true, Bool.not_eq_true'] at hclean
      rw [List.cons_append, reachesFinal_cons_some _ hp, ih c t ys hw hclean.2, hclean.1]
      simp

theorem flatten_replicate_succ {α : Type} (k : Nat) (g : List α) :
    (List.replicate (k + 1) g).flatten = g ++ (List.replicate k g).flatten := by
  rw [List.replicate_succ, List.flatten_cons]

theorem length_flatten_replicate {α : Type} (g : List α) :
    ∀ k, ((List.replicate k g).flatten).length = k * g.length := by
  intro k
  induction k with
  | zero => simp
  | succ n ih =>
    rw [flatten_replicate_succ, List.length_append, ih]
    ring

/-- Replaying any number of `genes12` blocks from `matA` is clean and returns
to `matA`. -/
theorem cycle_blocks :
    ∀ k, cleanReplay matF matA ((List.replicate k genes12).flatten) = true ∧
      walkM matA ((List.replicate k genes12).flatten) = some matA := by
  have hblockclean : cleanReplay matF matA genes12 = true := by decide
  have hblockwalk : walkM matA genes12 = some matA := by decide
  intro k
  induction k with
  | zero => exact ⟨rfl, rfl⟩
  | succ n ih =>
    rw [flatten_replicate_succ]
    constructor
    · rw [cleanReplay_append genes12 matA matA _ hblockwalk hblockclean]
      exact ih.1
    · rw [walkM_append]
      rw [hblockwalk]
      simpa using ih.2

theorem genesCyc_decomp :
    genesCyc = ((List.replicate 10289 genes12).flatten ++ [Direction.LEFT])
      ++ [Direction.LEFT] := by
  unfold genesCyc
  rw [List.append_assoc]
  rfl

/-- The cycling genome replays cleanly for `123469` moves (ending at `matAL`)
and then hits an illegal LEFT. -/
theorem genesCyc_run :
    cleanReplay matF matA ((List.replicate 10289 genes12).flatten ++ [Direction.LEFT]) = true ∧
      walkM matA ((List.replicate 10289 genes12).flatten ++ [Direction.LEFT]) = some matAL ∧
      play_only matAL Direction.LEFT = none := by
  obtain ⟨hclean, hwalk⟩ := cycle_blocks 10289
  refine ⟨?_, ?_, by decide⟩
  · rw [cleanReplay_append _ matA matA _ hwalk hclean]
    decide
  · rw [walkM_append, hwalk]
    decide

/-- The adaptivity of the cycling genome: `123469` successful steps, then the
break adds the step count, and the trailing positional term of `matAL`
(`-2`) still applies: `123469 - 2 = 123467 > 123456`. -/
theorem genesCyc_adaptivity : calculate_adaptivity matA matF genesCyc = 123467 := by
  obtain ⟨hclean, hwalk, hill⟩ := genesCyc_run
  unfold calculate_adaptivity
  rw [genesCyc_decomp, show (([Direction.LEFT] : List Direction)
      = Direction.LEFT :: []) from rfl,
    calcAdapt_illegal matF _ matA matAL matA 0 Direction.LEFT [] hclean hwalk hill]
  have hlen : ((List.replicate 10289 genes12).flatten ++ [Direction.LEFT]).length = 123469 := by
    rw [List.length_append, length_flatten_replicate]
    rfl
  rw [hlen]
  have : positional_adaptivity matAL matF = -2 := by decide
  rw [this]
  rfl

theorem genesCyc_not_reaches : reachesFinal matF matA genesCyc = false := by
  obtain ⟨hclean, hwalk, _⟩ := genesCyc_run
  rw [genesCyc_decomp, reachesFinal_append _ matA matAL _ hwalk hclean]
  decide

theorem genesHit_eq_cons :
    genesHit = Direction.LEFT :: Direction.DOWN :: List.replicate 123468 Direction.LEFT := by
  rfl

/-- The hit genome reaches `matF` at its second gene (the remaining 123468
genes are short-circuited). -/
theorem genesHit_reaches : reachesFinal matF matA genesHit = true := by
  have h1 : play_only matA Direction.LEFT = some matAL := by decide
  have h2 : play_only matAL Direction.DOWN = some matF := by decide
  rw [genesHit_eq_cons, reachesFinal_cons_some _ h1, reachesFinal_cons_some _ h2]
  have ht : matEq matF matF = true := by decide
  rw [ht, Bool.true_or, Bool.or_true]

theorem genesHit_adaptivity : calculate_adaptivity matA matF genesHit = FINAL_ADAPTIVITY := by
  have h1 : play_only matA Direction.LEFT = some matAL := by decide
  have hne : matEq matAL matF = false := by decide
  have h2 : play_only matAL Direction.DOWN = some matF := by decide
  have ht : matEq matF matF = true := by decide
  unfold calculate_adaptivity
  rw [genesHit_eq_cons, calcAdapt_step h1 hne matA 0 _, calcAdapt_hit h2 ht matA 1 _]

/-- Counterexample to claim C6 as stated: in the two-individual population
below (both genomes of length `123470`, as produced by `depth_limit =
123470`), the individual reaching `final` scores the sentinel `123456`, but
the non-reaching cycling individual scores `123467 > 123456` — the sentinel
fitness is NOT strictly greater than every non-matching fitness. -/
theorem claim_C6_counterexample :
    indHit.gene.length = 123470 ∧ indCyc.gene.length = 123470 ∧
      reachesFinal matF matA indHit.gene = true ∧
      reachesFinal matF matA indCyc.gene = false ∧
      evalAdaptivities matA matF [indHit, indCyc]
        = [{ gene := genesHit, adaptivity := FINAL_ADAPTIVITY },
            { gene := genesCyc, adaptivity := 123467 }] ∧
      ¬(FINAL_ADAPTIVITY > (123467 : Int)) := by
  have hhitlen : genesHit.length = 123470 := by
    rw [genesHit_eq_cons, List.length_cons, List.length_cons, List.length_replicate]
  have hcyclen : genesCyc.length = 123470 := by
    rw [genesCyc_decomp, List.length_append, List.length_append, length_flatten_replicate]
    rfl
  refine ⟨hhitlen, hcyclen, genesHit_reaches, genesCyc_not_reaches, ?_, by decide⟩
  have hmap : evalAdaptivities matA matF [indHit, indCyc]
      = [{ gene := genesHit, adaptivity := calculate_adaptivity matA matF genesHit },
          { gene := genesCyc, adaptivity := calculate_adaptivity matA matF genesCyc }] := rfl
  rw [hmap, genesHit_adaptivity, genesCyc_adaptivity]

/-! ### Claim C1: BFS optimality and completeness -/

theorem matEq_refl (a : Matrix) : matEq a a = true := by
  unfold matEq
  simp

theorem matEq_iff {a b : Matrix} : matEq a b = true ↔ a.arrangement = b.arrangement := by
  unfold matEq
  simp

theorem matEq_comm (a b : Matrix) : matEq a b = matEq b a := by
  unfold matEq
  rcases h : a.arrangement == b.arrangement with _ | _
  · simp only [beq_eq_false_iff_ne] at h
    have : (b.arrangement == a.arrangement) = false := by
      simp only [beq_eq_false_iff_ne]
      exact fun hc => h hc.symm
    rw [this]
  · simp only [beq_iff_eq] at h
    have : (b.arrangement == a.arrangement) = true := by
      simp only [beq_iff_eq]
      exact h.symm
    rw [this]

theorem fetch_congr {a b : Matrix} (h : a.arrangement = b.arrangement) (r c : Int) :
    fetch a r c = fetch b r c := by
  unfold fetch
  rw [h]

/-- Grid-content equality of two well-formed matrices is model equality (the
space cache is determined by the grid). -/
theorem matEq_wf_eq {a b : Matrix} (ha : WF a) (hb : WF b) (h : matEq a b = true) : a = b := by
  have harr : a.arrangement = b.arrangement := matEq_iff.1 h
  have hbnd := ha.2.2.1
  have h1 := boundary_check_iff.1 hbnd a.space.1 (by simp)
  have h2 := boundary_check_iff.1 hbnd a.space.2 (by simp)
  have hmem : a.space ∈ cellIndices := mem_cellIndices_iff.2 ⟨h1.1, h1.2, h2.1, h2.2⟩
  have hfetch : fetch b a.space.1 a.space.2 = SPACE_VALUE := by
    rw [← fetch_congr harr]
    exact ha.2.2.2.1
  have hsp : a.space = b.space := hb.2.2.2.2 a.space hmem hfetch
  rcases a with ⟨arra, spa⟩
  rcases b with ⟨arrb, spb⟩
  simp only at harr hsp
  rw [harr, hsp]

/-- A legal move always changes the grid (the moved tile is not the blank). -/
theorem play_only_matEq_ne {m c : Matrix} (hm : WF m) {d : Direction}
    (hp : play_only m d = some c) : matEq c m = false := by
  obtain ⟨hb, rfl⟩ := play_only_eq_some.1 hp
  obtain ⟨hs2, hsp, hfxy, hfsp, hother⟩ := exchange_spec hm hb (play_only_target_ne d)
  by_contra hcontra
  rw [Bool.not_eq_false] at hcontra
  have harr := matEq_iff.1 hcontra
  have := fetch_congr harr (m.space.1 + d.delta.1) (m.space.2 + d.delta.2)
  rw [hfxy] at this
  exact hm.fetch_ne_space hb (play_only_target_ne d) this.symm

theorem chainOf_cons_some {m c : Matrix} {d : Direction} (ds : List Direction)
    (hp : play_only m d = some c) :
    chainOf m (d :: ds) = (chainOf c ds).map (m :: ·) := by
  simp only [chainOf]
  rw [hp]

theorem chainOf_shape :
    ∀ (ds : List Direction) (m : Matrix) (l : List Matrix), chainOf m ds = some l →
      ∃ cs, l = m :: cs ∧ cs.length = ds.length := by
  intro ds
  induction ds with
  | nil =>
    intro m l h
    simp only [chainOf] at h
    exact ⟨[], (Option.some_inj.1 h).symm, rfl⟩
  | cons d rest ih =>
    intro m l h
    cases hp : play_only m d with
    | none =>
      simp only [chainOf, hp] at h
      exact Option.noConfusion h
    | some c =>
      rw [chainOf_cons_some rest hp] at h
      cases hc : chainOf c rest with
      | none => rw [hc] at h; exact absurd h (by simp)
      | some l' =>
        rw [hc] at h
        simp at h
        obtain ⟨cs', rfl, hlen⟩ := ih c l' hc
        exact ⟨c :: cs', h.symm, by simp [hlen]⟩

theorem chainOf_isSome :
    ∀ (ds : List Direction) (m t : Matrix), walkM m ds = some t →
      ∃ l, chainOf m ds = some l := by
  intro ds
  induction ds with
  | nil => intro m t _; exact ⟨[m], rfl⟩
  | cons d rest ih =>
    intro m t h
    cases hp : play_only m d with
    | none => rw [walkM_cons_none _ hp] at h; exact absurd h (by simp)
    | some c =>
      rw [walkM_cons_some _ hp] at h
      obtain ⟨l, hl⟩ := ih c t h
      exact ⟨m :: l, by rw [chainOf_cons_some rest hp, hl]; rfl⟩

/-- Every state on the chain of a walk from a well-formed matrix is
well-formed. -/
theorem chainOf_wf :
    ∀ (ds : List Direction) (m : Matrix), WF m → ∀ l, chainOf m ds = some l →
      ∀ x ∈ l, WF x := by
  intro ds
  induction ds with
  | nil =>
    intro m hm l h x hx
    simp only [chainOf, Option.some_inj] at h
    rw [← h] at hx
    simp at hx
    rw [hx]
    exact hm
  | cons d rest ih =>
    intro m hm l h x hx
    cases hp : play_only m d with
    | none =>
      simp only [chainOf, hp] at h
      exact Option.noConfusion h
    | some c =>
      rw [chainOf_cons_some rest hp] at h
      cases hc : chainOf c rest with
      | none => rw [hc] at h; exact absurd h (by simp)
      | some l' =>
        rw [hc] at h
        simp at h
        rw [← h] at hx
        rcases List.mem_cons.1 hx with rfl | hx'
        · exact hm
        · exact ih c (play_only_WF hm d hp) l' hc x hx'

theorem chainOf_take_walk :
    ∀ (ds : List Direction) (m : Matrix) (l : List Matrix), chainOf m ds = some l →
      ∀ k, k ≤ ds.length → walkM m (ds.take k) = some (l.getD k m) := by
  intro ds
  induction ds with
  | nil =>
    intro m l h k hk
    have hk0 : k = 0 := by
      simp at hk
      omega
    subst hk0
    simp only [chainOf, Option.some_inj] at h
    rw [← h]
    rfl
  | cons d rest ih =>
    intro m l h k hk
    cases hp : play_only m d with
    | none =>
      simp only [chainOf, hp] at h
      exact Option.noConfusion h
    | some c =>
      rw [chainOf_cons_some rest hp] at h
      cases hc : chainOf c rest with
      | none => rw [hc] at h; exact absurd h (by simp)
      | some l' =>
        rw [hc] at h
        simp at h
        rw [← h]
        cases k with
        | zero => rfl
        | succ k' =>
          have hk' : k' ≤ rest.length := by simpa using hk
          rw [List.take_succ_cons, walkM_cons_some _ hp, ih c l' hc k' hk']
          obtain ⟨cs', rfl, hcs⟩ := chainOf_shape rest c l' hc
          have hlt : k' < (c :: cs').length := by simp [hcs]; omega
          rw [List.getD_eq_getElem _ _ hlt]
          have hlt2 : k' + 1 < (m :: c :: cs').length := by simp [hcs]; omega
          rw [List.getD_eq_getElem _ _ hlt2]
          rfl

theorem chainOf_drop_walk :
    ∀ (ds : List Direction) (m : Matrix) (l : List Matrix), chainOf m ds = some l →
      ∀ k, k ≤ ds.length → walkM (l.getD k m) (ds.drop k) = walkM m ds := by
  intro ds
  induction ds with
  | nil =>
    intro m l h k hk
    have hk0 : k = 0 := by
      simp at hk
      omega
    subst hk0
    simp only [chainOf, Option.some_inj] at h
    rw [← h]
    rfl
  | cons d rest ih =>
    intro m l h k hk
    cases hp : play_only m d with
    | none =>
      simp only [chainOf, hp] at h
      exact Option.noConfusion h
    | some c =>
      rw [chainOf_cons_some rest hp] at h
      cases hc : chainOf c rest with
      | none => rw [hc] at h; exact absurd h (by simp)
      | some l' =>
        rw [hc] at h
        simp at h
        rw [← h]
        cases k with
        | zero =>
          rfl
        | succ k' =>
          have hk' : k' ≤ rest.length := by simpa using hk
          rw [List.drop_succ_cons, walkM_cons_some rest hp, ← ih c l' hc k' hk']
          obtain ⟨cs', rfl, hcs⟩ := chainOf_shape rest c l' hc
          have hlt : k' < (c :: cs').length := by simp [hcs]; omega
          rw [List.getD_eq_getElem _ _ hlt]
          have hlt2 : k' + 1 < (m :: c :: cs').length := by simp [hcs]; omega
          rw [List.getD_eq_getElem _ _ hlt2]
          rfl

/-- Any legal walk can be shortened to one visiting pairwise-distinct grids
with the same start and end: if two visited states share a grid they are
equal (well-formedness pins the cache), so the walk between them can be
spliced out. -/
theorem exists_simple_walk {m : Matrix} (hm : WF m) :
    ∀ (n : Nat) (ds : List Direction) (t : Matrix), ds.length ≤ n → walkM m ds = some t →
      ∃ ds2 cs2, chainOf m ds2 = some (m :: cs2) ∧ walkM m ds2 = some t ∧
        ds2.length ≤ ds.length ∧
        List.Pairwise (fun a b => matEq a b = false) (m :: cs2) := by
  intro n
  induction n with
  | zero =>
    intro ds t hlen hw
    have hds : ds = [] := List.length_eq_zero.1 (by omega)
    subst hds
    have ht : t = m := by
      simpa [walkM] using hw.symm
    subst ht
    exact ⟨[], [], rfl, rfl, le_refl _, by simp⟩
  | succ n ih =>
    intro ds t hlen hw
    obtain ⟨l, hl⟩ := chainOf_isSome ds m t hw
    obtain ⟨cs, rfl, hcslen⟩ := chainOf_shape ds m l hl
    by_cases hnd : List.Pairwise (fun a b => matEq a b = false) (m :: cs)
    · exact ⟨ds, cs, hl, hw, le_refl _, hnd⟩
    · rw [List.pairwise_iff_get] at hnd
      push_neg at hnd
      obtain ⟨i, j, hij, hR⟩ := hnd
      have hRtrue : matEq ((m :: cs).get i) ((m :: cs).get j) = true := by
        revert hR
        cases matEq ((m :: cs).get i) ((m :: cs).get j) <;> simp
      have hwfall := chainOf_wf ds m hm (m :: cs) hl
      have heq : (m :: cs).get i = (m :: cs).get j :=
        matEq_wf_eq (hwfall _ ((m :: cs).get_mem i.1 i.2))
          (hwfall _ ((m :: cs).get_mem j.1 j.2)) hRtrue
      have hjlen : j.val ≤ ds.length := by
        have hj2 := j.2
        simp only [List.length_cons, hcslen] at hj2
        omega
      have hilen : i.val ≤ ds.length := by
        have hij' : i.val < j.val := hij
        omega
      have hgi : (m :: cs).getD i.val m = (m :: cs).get i := by
        rw [List.getD_eq_getElem _ _ i.2]
        exact (List.get_eq_getElem _ _).symm
      have hgj : (m :: cs).getD j.val m = (m :: cs).get j := by
        rw [List.getD_eq_getElem _ _ j.2]
        exact (List.get_eq_getElem _ _).symm
      have hw2 : walkM m (ds.take i.val ++ ds.drop j.val) = some t := by
        rw [walkM_append]
        rw [chainOf_take_walk ds m (m :: cs) hl i.val hilen]
        rw [Option.some_bind]
        rw [hgi, heq, ← hgj]
        rw [chainOf_drop_walk ds m (m :: cs) hl j.val hjlen]
        exact hw
      have hlen2 : (ds.take i.val ++ ds.drop j.val).length < ds.length := by
        rw [List.length_append, List.length_take, List.length_drop]
        have hij' : i.val < j.val := hij
        omega
      obtain ⟨ds2, cs2, h1, h2, h3, h4⟩ :=
        ih (ds.take i.val ++ ds.drop j.val) t (by omega) hw2
      exact ⟨ds2, cs2, h1, h2, by omega, h4⟩

theorem pairwise_of_all {α : Type} {R : α → α → Prop} :
    ∀ (l : List α), (∀ a ∈ l, ∀ b ∈ l, R a b) → l.Pairwise R := by
  intro l
  induction l with
  | nil => intro _; exact List.Pairwise.nil
  | cons x xs ih =>
    intro h
    exact List.Pairwise.cons
      (fun b hb => h x (by simp) b (by simp [hb]))
      (ih (fun a ha b hb => h a (by simp [ha]) b (by simp [hb])))

theorem memMat_cons (x y : Matrix) (l : List Matrix) :
    memMat x (y :: l) = (matEq x y || memMat x l) := by
  simp [memMat]

theorem memMat_eq_false_iff {x : Matrix} {l : List Matrix} :
    memMat x l = false ↔ ∀ y ∈ l, matEq x y = false := by
  simp [memMat, List.any_eq_false]

theorem expandNode_depth {v c : Node} (hc : c ∈ expandNode v) :
    nodeDepth c = nodeDepth v + 1 := by
  obtain ⟨x, _, _, rfl⟩ := mem_expandNode.1 hc
  simp [nodeDepth]

/-- The root queue satisfies the invariant once a budget-`k` simple completion
exists. -/
theorem invQ_root {init final : Matrix} {k : Nat}
    (hgood : GoodCompletion final k { mat := init, hist := [] }) :
    InvQ init final k [{ mat := init, hist := [] }] := by
  refine ⟨?_, ?_, ?_, ⟨{ mat := init, hist := [] }, by simp, hgood⟩⟩
  · intro n hn
    simp at hn
    rw [hn]
    exact ⟨rfl, by unfold ChainNodup; simp⟩
  · exact List.pairwise_singleton _ _
  · intro x hx
    simp at hx
    rw [hx]
    exact Nat.le_succ _

/-- A solvable pair gives the root a simple completion within the same move
budget. -/
theorem goodCompletion_root {init final : Matrix} (hwf : WF init) {n : Nat}
    (h : reachesIn init final n) :
    GoodCompletion final n { mat := init, hist := [] } := by
  obtain ⟨ds, hdslen, t, hw, hteq⟩ := h
  obtain ⟨ds2, cs2, hchain, hw2, hlen2, hpw⟩ :=
    exists_simple_walk hwf ds.length ds t (le_refl _) hw
  refine ⟨ds2, cs2, t, hchain, hw2, hteq, ?_, hpw.of_cons, ?_⟩
  · simp only [nodeDepth, List.length_nil, Nat.zero_add]
    omega
  · intro x hx
    have hne := (List.pairwise_cons.1 hpw).1 x hx
    show memMat x (({ mat := init, hist := ([] : List Matrix) } : Node).mat
      :: ({ mat := init, hist := ([] : List Matrix) } : Node).hist) = false
    rw [memMat_eq_false_iff]
    intro y hy
    simp at hy
    rw [hy, matEq_comm]
    exact hne

/-- Preservation of the BFS loop invariant over one non-goal iteration:
dequeue the head, enqueue its surviving children. -/
theorem invQ_step {init final : Matrix} (hwf : WF init) {k : Nat} {v : Node}
    {rest : List Node} (hinv : InvQ init final k (v :: rest))
    (hne : matEq v.mat final = false) :
    InvQ init final k (rest ++ expandNode v) := by
  obtain ⟨hok, hsort, hwin, u, hu, hgood⟩ := hinv
  have hwin' : ∀ x ∈ v :: rest, nodeDepth x ≤ nodeDepth v + 1 := hwin
  have hvok : NodeOK init v := hok v (by simp)
  have hwfv : WF v.mat := chainFrom_wf hwf v.hist v.mat hvok.1
  have hchild_ok : ∀ c ∈ expandNode v, NodeOK init c := by
    intro c hc
    obtain ⟨x, hxp, hxf, rfl⟩ := mem_expandNode.1 hc
    obtain ⟨d, hd⟩ := mem_play_exists hxp
    refine ⟨⟨⟨d, hd⟩, hvok.1⟩, ?_⟩
    unfold ChainNodup
    rw [List.pairwise_cons]
    constructor
    · intro y hy
      rcases List.mem_cons.1 hy with rfl | hy'
      · exact play_only_matEq_ne hwfv hd
      · exact memMat_eq_false_iff.1 hxf y hy'
    · exact hvok.2
  have hall : ∀ y ∈ rest ++ expandNode v, nodeDepth y ≤ nodeDepth v + 1 := by
    intro y hy
    rcases List.mem_append.1 hy with h | h
    · exact hwin' y (by simp [h])
    · rw [expandNode_depth h]
  refine ⟨?_, ?_, ?_, ?_⟩
  · intro n hn
    rcases List.mem_append.1 hn with h | h
    · exact hok n (by simp [h])
    · exact hchild_ok n h
  · unfold QueueSorted at hsort ⊢
    rw [List.pairwise_append]
    refine ⟨(List.pairwise_cons.1 hsort).2, ?_, ?_⟩
    · refine pairwise_of_all _ ?_
      intro a ha b hb
      rw [expandNode_depth ha, expandNode_depth hb]
    · intro a ha b hb
      rw [expandNode_depth hb]
      exact hwin' a (by simp [ha])
  · cases hq : rest ++ expandNode v with
    | nil => exact trivial
    | cons hd tl =>
      have hh : nodeDepth v ≤ nodeDepth hd := by
        have hmem : hd ∈ rest ++ expandNode v := by rw [hq]; simp
        rcases List.mem_append.1 hmem with h | h
        · exact (List.pairwise_cons.1 hsort).1 hd h
        · rw [expandNode_depth h]
          omega
      intro x hx
      have hxmem : x ∈ rest ++ expandNode v := by rw [hq]; exact hx
      exact le_trans (hall x hxmem) (by omega)
  · rcases List.mem_cons.1 hu with rfl | hu'
    · obtain ⟨ds, cs, t, hchain, hwalk, hteq, hdep, hpw, hdisj⟩ := hgood
      cases ds with
      | nil =>
        simp only [chainOf, Option.some_inj] at hchain
        have ht : t = u.mat := by
          simpa [walkM] using hwalk.symm
        rw [ht] at hteq
        rw [hne] at hteq
        exact Bool.noConfusion hteq
      | cons d ds2 =>
        cases hp : play_only u.mat d with
        | none =>
          simp only [chainOf, hp] at hchain
          exact Option.noConfusion hchain
        | some w =>
          rw [chainOf_cons_some ds2 hp] at hchain
          cases hcw : chainOf w ds2 with
          | none =>
            rw [hcw] at hchain
            exact absurd hchain (by simp)
          | some lw =>
            rw [hcw] at hchain
            simp at hchain
            obtain ⟨cs', hlw, hcs2len⟩ := chainOf_shape ds2 w lw hcw
            have hcseq : cs = w :: cs' := by rw [← hchain, hlw]
            rw [walkM_cons_some ds2 hp] at hwalk
            have hwmem : w ∈ play u.mat [] := by
              rw [play_eq_filterMap]
              exact List.mem_filterMap.2 ⟨d, direction_mem_DIRECTIONS d, hp⟩
            have hwdisj := hdisj w (by rw [hcseq]; simp)
            have hwf2 : memMat w u.hist = false := by
              rw [memMat_cons, Bool.or_eq_false_iff] at hwdisj
              exact hwdisj.2
            have hchild : ({ mat := w, hist := u.mat :: u.hist } : Node) ∈ expandNode u :=
              mem_expandNode.2 ⟨w, hwmem, hwf2, rfl⟩
            refine ⟨{ mat := w, hist := u.mat :: u.hist },
              List.mem_append_right _ hchild, ds2, cs', t, ?_, hwalk, hteq, ?_, ?_, ?_⟩
            · rw [hcw, hlw]
            · simp only [nodeDepth, List.length_cons] at hdep ⊢
              omega
            · rw [hcseq] at hpw
              exact hpw.of_cons
            · intro x hx
              rw [memMat_eq_false_iff]
              intro y hy
              rcases List.mem_cons.1 hy with rfl | hy'
              · rw [hcseq] at hpw
                rw [matEq_comm]
                exact (List.pairwise_cons.1 hpw).1 x hx
              · have hxcs : x ∈ cs := by
                  rw [hcseq]
                  exact List.mem_cons_of_mem w hx
                exact memMat_eq_false_iff.1 (hdisj x hxcs) y hy'
    · exact ⟨u, List.mem_append_left _ hu', hgood⟩

theorem bfsLoop_succ_cons (final : Matrix) (fuel : Nat) (n : Node) (rest : List Node) :
    bfsLoop final (fuel + 1) (n :: rest)
      = if matEq n.mat final then some (stepsOfChain n.mat n.hist)
        else bfsLoop final fuel (rest ++ expandNode n) := rfl

theorem chainFrom_walk {init : Matrix} :
    ∀ (hist : List Matrix) (m : Matrix), ChainFrom init m hist →
      ∃ ds : List Direction, ds.length = hist.length ∧ walkM init ds = some m := by
  intro hist
  induction hist with
  | nil =>
    intro m h
    simp only [ChainFrom] at h
    exact ⟨[], rfl, by rw [h]; rfl⟩
  | cons p ps ih =>
    intro m h
    obtain ⟨⟨d, hd⟩, hch⟩ := h
    obtain ⟨ds, hlen, hw⟩ := ih p hch
    refine ⟨ds ++ [d], by simp [hlen], ?_⟩
    rw [walkM_append, hw, Option.some_bind, walkM_cons_some [] hd]
    rfl

/-- Whenever the BFS loop returns a result under the invariant, the result is
a successfully reconstructed step list whose length is realised by a legal
walk and bounded by the invariant's move budget. -/
theorem bfsLoop_opt {init final : Matrix} (hwf : WF init) :
    ∀ (fuel : Nat) (q : List Node) (k : Nat) (r : Option (List Step)),
      InvQ init final k q → bfsLoop final fuel q = some r →
      ∃ steps, r = some steps ∧ reachesIn init final steps.length ∧ steps.length ≤ k := by
  intro fuel
  induction fuel with
  | zero =>
    intro q k r _ h
    exact absurd h (by simp [bfsLoop])
  | succ f ih =>
    intro q k r hinv hrun
    cases q with
    | nil => exact absurd hrun (by simp [bfsLoop])
    | cons v rest =>
      rw [bfsLoop_succ_cons] at hrun
      by_cases hv : matEq v.mat final = true
      · rw [if_pos hv] at hrun
        have hr : r = stepsOfChain v.mat v.hist := (Option.some_inj.1 hrun).symm
        obtain ⟨hok, hsort, hwin, u, hu, hgood⟩ := hinv
        have hvok := hok v (by simp)
        obtain ⟨steps, hsteps, hslen⟩ := stepsOfChain_of_chain hwf v.hist v.mat hvok.1
        refine ⟨steps, by rw [hr, hsteps], ?_, ?_⟩
        · obtain ⟨ds, hdlen, hwds⟩ := chainFrom_walk v.hist v.mat hvok.1
          exact ⟨ds, by rw [hslen, hdlen], v.mat, hwds, hv⟩
        · obtain ⟨ds, cs, t, _, _, _, hdep, _, _⟩ := hgood
          have hvd : nodeDepth v ≤ nodeDepth u := by
            rcases List.mem_cons.1 hu with rfl | hu'
            · exact le_refl _
            · exact (List.pairwise_cons.1 hsort).1 u hu'
          rw [hslen]
          show v.hist.length ≤ k
          simp only [nodeDepth] at hvd hdep
          omega
      · have hvf : matEq v.mat final = false := by
          cases hq : matEq v.mat final
          · rfl
          · exact absurd hq hv
        rw [if_neg hv] at hrun
        exact ih _ k r (invQ_step hwf hinv hvf) hrun

theorem mem_entries_place {m : Matrix} {r c v x : Int}
    (hx : x ∈ entries (place m r c v)) : x = v ∨ x ∈ entries m := by
  unfold place at hx
  split at hx
  · unfold entries at hx ⊢
    simp only at hx
    obtain ⟨row, hrow, hxrow⟩ := List.mem_flatten.1 hx
    rcases List.mem_or_eq_of_mem_set hrow with h | h
    · exact Or.inr (List.mem_flatten.2 ⟨row, h, hxrow⟩)
    · subst h
      rcases List.mem_or_eq_of_mem_set hxrow with h2 | h2
      · by_cases hlt : r.toNat < m.arrangement.length
        · have hmem : m.arrangement.getD r.toNat [] ∈ m.arrangement := by
            rw [List.getD_eq_getElem _ _ hlt]
            exact List.getElem_mem hlt
          exact Or.inr (List.mem_flatten.2 ⟨_, hmem, h2⟩)
        · rw [List.getD_eq_default _ _ (by omega)] at h2
          exact absurd h2 (by simp)
      · exact Or.inl h2
  · exact Or.inr hx

theorem fetch_mem_entries {m : Matrix} (hs : Shape3 m) {r c : Int}
    (hb : boundary_check [r, c] = true) : fetch m r c ∈ entries m := by
  have hr := boundary_check_iff.1 hb r (by simp)
  have hc := boundary_check_iff.1 hb c (by simp)
  unfold fetch
  rw [if_pos hb]
  have hrow : m.arrangement.getD r.toNat [] ∈ m.arrangement := shape3_row_mem hs hr.1 hr.2
  have hcl : c.toNat < (m.arrangement.getD r.toNat []).length := by
    rw [shape3_row_len hs hr.1 hr.2]
    exact toNat_lt_three hc.1 hc.2
  have helem : (m.arrangement.getD r.toNat []).getD c.toNat 0
      ∈ m.arrangement.getD r.toNat [] := by
    rw [List.getD_eq_getElem _ _ hcl]
    exact List.getElem_mem hcl
  exact List.mem_flatten.2 ⟨_, hrow, helem⟩

theorem entries_play_only {m c : Matrix} (hm : WF m) {d : Direction}
    (hp : play_only m d = some c) : ∀ x ∈ entries c, x ∈ entries m := by
  obtain ⟨hb, rfl⟩ := play_only_eq_some.1 hp
  intro x hx
  unfold exchange at hx
  split at hx
  · rcases mem_entries_place hx with h1 | h1
    · rw [h1]
      exact fetch_mem_entries hm.shape3 hm.2.2.1
    · rcases mem_entries_place h1 with h2 | h2
      · rw [h2]
        exact fetch_mem_entries hm.shape3 hb
      · exact h2
  · exact hx

theorem mem_triples {α : Type} {l : List α} {es : List α} :
    l ∈ triples es ↔ ∃ a b c, l = [a, b, c] ∧ a ∈ es ∧ b ∈ es ∧ c ∈ es := by
  unfold triples
  simp only [List.mem_flatMap, List.mem_map]
  constructor
  · rintro ⟨a, ha, b, hb, c, hc, rfl⟩
    exact ⟨a, b, c, rfl, ha, hb, hc⟩
  · rintro ⟨a, b, c, rfl, ha, hb, hc⟩
    exact ⟨a, ha, b, hb, c, hc, rfl⟩

theorem arrangement_mem_gridsOver {m : Matrix} {es : List Int} (hs : Shape3 m)
    (hsub : ∀ x ∈ entries m, x ∈ es) : m.arrangement ∈ gridsOver es := by
  obtain ⟨r0, r1, r2, harr⟩ := List.length_eq_three.1 hs.1
  have hrow : ∀ row ∈ m.arrangement, row ∈ triples es := by
    intro row hrowm
    obtain ⟨a, b, c, hrow3⟩ := List.length_eq_three.1 (hs.2 row hrowm)
    rw [mem_triples]
    refine ⟨a, b, c, hrow3, ?_, ?_, ?_⟩ <;>
      refine hsub _ (List.mem_flatten.2 ⟨row, hrowm, ?_⟩) <;> rw [hrow3] <;> simp
  unfold gridsOver
  rw [mem_triples]
  exact ⟨r0, r1, r2, harr,
    hrow r0 (by rw [harr]; simp), hrow r1 (by rw [harr]; simp), hrow r2 (by rw [harr]; simp)⟩

theorem nodup_length_le {α : Type} [DecidableEq α] {l L : List α} (hn : l.Nodup)
    (hsub : ∀ x ∈ l, x ∈ L) : l.length ≤ L.length := by
  rw [← List.toFinset_card_of_nodup hn]
  refine le_trans (Finset.card_le_card ?_) L.toFinset_card_le
  intro x hx
  simp only [List.mem_toFinset] at hx ⊢
  exact hsub x hx

theorem chainFrom_all_wf {init : Matrix} (hwf : WF init) :
    ∀ (hist : List Matrix) (m : Matrix), ChainFrom init m hist →
      ∀ x ∈ m :: hist, WF x := by
  intro hist
  induction hist with
  | nil =>
    intro m h x hx
    simp only [ChainFrom] at h
    simp at hx
    rw [hx, h]
    exact hwf
  | cons p ps ih =>
    intro m h x hx
    obtain ⟨⟨d, hd⟩, hch⟩ := h
    rcases List.mem_cons.1 hx with rfl | hx'
    · exact play_only_WF (chainFrom_wf hwf ps p hch) d hd
    · exact ih p hch x hx'

theorem chainFrom_entries {init : Matrix} (hwf : WF init) :
    ∀ (hist : List Matrix) (m : Matrix), ChainFrom init m hist →
      ∀ x ∈ m :: hist, ∀ y ∈ entries x, y ∈ entries init := by
  intro hist
  induction hist with
  | nil =>
    intro m h x hx
    simp only [ChainFrom] at h
    simp at hx
    rw [hx, h]
    exact fun y hy => hy
  | cons p ps ih =>
    intro m h x hx
    obtain ⟨⟨d, hd⟩, hch⟩ := h
    rcases List.mem_cons.1 hx with rfl | hx'
    · intro y hy
      exact ih p hch p (by simp) y
        (entries_play_only (chainFrom_wf hwf ps p hch) hd y hy)
    · exact ih p hch x hx'

/-- Chains never repeat grids and live inside the finite grid universe, so
every node's depth is below the universe size. -/
theorem nodeOK_depth_bound {init : Matrix} (hwf : WF init) {n : Node}
    (h : NodeOK init n) : nodeDepth n + 1 ≤ gridBound init := by
  have hmap_nodup : ((n.mat :: n.hist).map Matrix.arrangement).Nodup := by
    refine List.Pairwise.map _ ?_ h.2
    intro a b hab
    intro hcontra
    have : matEq a b = true := matEq_iff.2 hcontra
    rw [this] at hab
    exact Bool.noConfusion hab
  have hmap_sub : ∀ g ∈ (n.mat :: n.hist).map Matrix.arrangement,
      g ∈ gridsOver (entries init) := by
    intro g hg
    obtain ⟨x, hxmem, rfl⟩ := List.mem_map.1 hg
    refine arrangement_mem_gridsOver ?_ ?_
    · exact (chainFrom_all_wf hwf n.hist n.mat h.1 x hxmem).shape3
    · exact chainFrom_entries hwf n.hist n.mat h.1 x hxmem
  have := nodup_length_le hmap_nodup hmap_sub
  simp only [List.length_map, List.length_cons] at this
  unfold nodeDepth gridBound
  omega

theorem measureQ_append (B : Nat) (q1 q2 : List Node) :
    measureQ B (q1 ++ q2) = measureQ B q1 + measureQ B q2 := by
  simp [measureQ]

theorem map_sum_const {α : Type} {f : α → Nat} {c : Nat} :
    ∀ (l : List α), (∀ x ∈ l, f x = c) → (l.map f).sum = l.length * c := by
  intro l
  induction l with
  | nil => intro _; simp
  | cons x xs ih =>
    intro h
    rw [List.map_cons, List.sum_cons, ih (fun y hy => h y (by simp [hy])), h x (by simp),
      List.length_cons]
    ring

theorem expandNode_length_le (v : Node) : (expandNode v).length ≤ 4 := by
  unfold expandNode
  rw [List.length_map]
  refine le_trans (List.length_filter_le _ _) ?_
  rw [play_eq_filterMap]
  exact List.length_filterMap_le _ _

theorem measureQ_children {B : Nat} {v : Node} (hlt : nodeDepth v + 1 ≤ B) :
    measureQ B (expandNode v) < 5 ^ (B - nodeDepth v) := by
  have hsum : measureQ B (expandNode v)
      = (expandNode v).length * 5 ^ (B - nodeDepth v - 1) := by
    unfold measureQ
    refine map_sum_const _ ?_
    intro c hc
    rw [expandNode_depth hc]
    congr 1
  have hcnt := expandNode_length_le v
  have hpow : 5 ^ (B - nodeDepth v) = 5 ^ (B - nodeDepth v - 1) * 5 := by
    rw [← pow_succ]
    congr 1
    omega
  have hp : 0 < 5 ^ (B - nodeDepth v - 1) := Nat.pos_pow_of_pos _ (by norm_num)
  rw [hsum, hpow]
  have h4 : (expandNode v).length * 5 ^ (B - nodeDepth v - 1)
      ≤ 4 * 5 ^ (B - nodeDepth v - 1) := Nat.mul_le_mul_right _ hcnt
  calc (expandNode v).length * 5 ^ (B - nodeDepth v - 1)
      ≤ 4 * 5 ^ (B - nodeDepth v - 1) := h4
    _ < 5 ^ (B - nodeDepth v - 1) * 5 := by omega

/-- With fuel above the decreasing queue measure, the loop returns (for a
solvable pair the queue never empties, so the result is a found goal). -/
theorem bfsLoop_complete {init final : Matrix} (hwf : WF init) :
    ∀ (fuel : Nat) (q : List Node) (k : Nat), InvQ init final k q →
      measureQ (gridBound init) q < fuel →
      ∃ r, bfsLoop final fuel q = some r := by
  intro fuel
  induction fuel with
  | zero =>
    intro q k _ hm
    omega
  | succ f ih =>
    intro q k hinv hm
    obtain ⟨hok, hsort, hwin, u, hu, hgood⟩ := hinv
    cases q with
    | nil => exact absurd hu (by simp)
    | cons v rest =>
      rw [bfsLoop_succ_cons]
      by_cases hv : matEq v.mat final = true
      · rw [if_pos hv]
        exact ⟨_, rfl⟩
      · have hvf : matEq v.mat final = false := by
          cases hq : matEq v.mat final
          · rfl
          · exact absurd hq hv
        rw [if_neg hv]
        refine ih _ k (invQ_step hwf ⟨hok, hsort, hwin, u, hu, hgood⟩ hvf) ?_
        have hbound := nodeOK_depth_bound hwf (hok v (by simp))
        have hstep := measureQ_children (B := gridBound init) (v := v) (by omega)
        have hcons : measureQ (gridBound init) (v :: rest)
            = 5 ^ (gridBound init - nodeDepth v) + measureQ (gridBound init) rest := by
          simp [measureQ]
        rw [measureQ_append]
        omega

theorem bfsSolve_eq_loop (init final : Matrix) (fuel : Nat) :
    bfsSolve init final fuel = bfsLoop final fuel [{ mat := init, hist := [] }] := rfl

/-- Claim C1: on a solvable pair, whenever `BreadthFirstSearch.solve` returns
(and for large enough fuel it does return), the result is a step list of
minimum move count among all legal-move paths from `initial` to `final` —
the FIFO frontier, dequeue-time goal test by grid equality, expansion with
only ancestor-chain exclusion and the parent-link walk still yield a
shortest path. -/
theorem claim_C1 (init final : Matrix) (hwf : WF init) (hsolv : Solvable init final) :
    (∀ fuel r, bfsSolve init final fuel = some r →
      ∃ steps, r = some steps ∧ reachesIn init final steps.length ∧
        ∀ m, reachesIn init final m → steps.length ≤ m) ∧
      (∃ fuel steps, bfsSolve init final fuel = some (some steps) ∧
        reachesIn init final steps.length ∧
        ∀ m, reachesIn init final m → steps.length ≤ m) := by
  have hpart1 : ∀ fuel r, bfsSolve init final fuel = some r →
      ∃ steps, r = some steps ∧ reachesIn init final steps.length ∧
        ∀ m, reachesIn init final m → steps.length ≤ m := by
    intro fuel r hrun
    rw [bfsSolve_eq_loop] at hrun
    obtain ⟨n0, hreach0⟩ := hsolv
    have hinv0 := invQ_root (goodCompletion_root hwf hreach0)
    obtain ⟨steps, hr, hreachlen, _⟩ := bfsLoop_opt hwf fuel _ n0 r hinv0 hrun
    refine ⟨steps, hr, hreachlen, ?_⟩
    intro m hm
    have hinvm := invQ_root (goodCompletion_root hwf hm)
    obtain ⟨steps2, hr2, _, hle2⟩ := bfsLoop_opt hwf fuel _ m r hinvm hrun
    have heq : steps = steps2 := by
      rw [hr] at hr2
      exact Option.some_inj.1 hr2
    rw [heq]
    exact hle2
  refine ⟨hpart1, ?_⟩
  obtain ⟨n0, hreach0⟩ := hsolv
  have hinv0 := invQ_root (goodCompletion_root hwf hreach0)
  obtain ⟨r, hr⟩ := bfsLoop_complete hwf
    (measureQ (gridBound init) [{ mat := init, hist := [] }] + 1)
    [{ mat := init, hist := [] }] n0 hinv0 (by omega)
  rw [← bfsSolve_eq_loop] at hr
  obtain ⟨steps, hsr, h1, h2⟩ := hpart1 _ r hr
  rw [hsr] at hr
  exact ⟨_, steps, hr, h1, h2⟩

/-- Witness for claim C1 on the spec's example (one RIGHT move apart): the
hypotheses hold and the existence part yields a shortest solution. -/
theorem claim_C1_witness :
    WF matA ∧ Solvable matA matAR ∧
      (∃ fuel steps, bfsSolve matA matAR fuel = some (some steps) ∧
        reachesIn matA matAR steps.length ∧
        ∀ m, reachesIn matA matAR m → steps.length ≤ m) :=
  ⟨by decide, ⟨1, [Direction.RIGHT], rfl, matAR, by decide, by decide⟩,
    (claim_C1 matA matAR (by decide)
      ⟨1, [Direction.RIGHT], rfl, matAR, by decide, by decide⟩).2⟩

end Puzzle
